import Mathlib

/-!
Verification of the octree construction / flattening pipeline and the
octree ray-casting routines of the voxel renderer.

The embedding follows the source:
* `src/src/voxel_renderer.cpp` — `buildOctree`, `VoxelRenderer::buildOctreeFromVoxels`,
  the dirty-flag state machine (`setVoxels`, `addVoxel`, `clearVoxels`,
  `uploadOctreeData`, `render`);
* `src/assets/shaders/raymarching.frag` — `rayAABB`, `traceOctree`,
  `traceShadow`, `ao`.

Floating-point (`float` / GLSL `float`) scalars are modelled as `ℚ`;
machine integers are `ℕ` / `ℤ` with explicit `% 2 ^ 32` where the C++
code can overflow (the `header = (firstChildIdx << 8) | mask` pack).
-/

/-- Componentwise 3-vector of rationals, modelling `glm::vec3`. -/
structure Vec3 where
  x : ℚ
  y : ℚ
  z : ℚ
  deriving DecidableEq

/-- Componentwise 4-vector of rationals, modelling `glm::vec4` (rgba = xyzw). -/
structure Vec4 where
  x : ℚ
  y : ℚ
  z : ℚ
  w : ℚ
  deriving DecidableEq

def Vec3.add (a b : Vec3) : Vec3 := ⟨a.x + b.x, a.y + b.y, a.z + b.z⟩

def Vec3.sub (a b : Vec3) : Vec3 := ⟨a.x - b.x, a.y - b.y, a.z - b.z⟩

def Vec3.smul (a : Vec3) (s : ℚ) : Vec3 := ⟨a.x * s, a.y * s, a.z * s⟩

/-- Componentwise product, modelling `vec3 * vec3` in GLSL. -/
def Vec3.hmul (a b : Vec3) : Vec3 := ⟨a.x * b.x, a.y * b.y, a.z * b.z⟩

/-- Componentwise `glm::min` / GLSL `min`. -/
def Vec3.cmin (a b : Vec3) : Vec3 := ⟨min a.x b.x, min a.y b.y, min a.z b.z⟩

/-- Componentwise `glm::max` / GLSL `max`. -/
def Vec3.cmax (a b : Vec3) : Vec3 := ⟨max a.x b.x, max a.y b.y, max a.z b.z⟩

/-- Componentwise `glm::floor`. -/
def Vec3.cfloor (a : Vec3) : Vec3 := ⟨⌊a.x⌋, ⌊a.y⌋, ⌊a.z⌋⟩

/-- Componentwise reciprocal, modelling `1.0 / v` in GLSL. -/
def Vec3.recipV (a : Vec3) : Vec3 := ⟨1 / a.x, 1 / a.y, 1 / a.z⟩

def Vec3.zero : Vec3 := ⟨0, 0, 0⟩

def Vec4.zero : Vec4 := ⟨0, 0, 0, 0⟩

/-- `glm::clamp(v, lo, hi)` on scalars: `min (max v lo) hi`. -/
def qclamp (v lo hi : ℚ) : ℚ := min (max v lo) hi

/-- An input voxel: integer grid position (`glm::ivec3`, via `getPosition`)
and a normalized RGBA color (`getColor`).  The other `Voxel` fields
(palette index, material properties) are never read by the octree
pipeline and are omitted. -/
structure Voxel where
  px : ℤ
  py : ℤ
  pz : ℤ
  color : Vec4
  deriving DecidableEq

/-- `glm::vec3(p.getPosition())` — the voxel position as a float vector. -/
def Voxel.posVec (v : Voxel) : Vec3 := ⟨(v.px : ℚ), (v.py : ℚ), (v.pz : ℚ)⟩

/-- The flattened node record (`struct GPUNode { uint32_t childMask; uint32_t color; }`).
`childMask` is the header word: high 24 bits = index of first child,
low 8 bits = child existence bitmask.  `color` is packed RGBA8. -/
structure GPUNode where
  childMask : ℕ
  color : ℕ
  deriving DecidableEq

/-- The octant bucketing index used by `buildOctree`
(`voxel_renderer.cpp` lines 38–40):
`(pos.x >= center.x ? 1 : 0) | (pos.y >= center.y ? 2 : 0) | (pos.z >= center.z ? 4 : 0)`. -/
def octantIndexBuild (p c : Vec3) : ℕ :=
  (if p.x ≥ c.x then 1 else 0) |||
  (if p.y ≥ c.y then 2 else 0) |||
  (if p.z ≥ c.z then 4 else 0)

/-- The octant formula as the specification words it (§3 Octant numbering):
`(x≥center ? 1:0) | (y≥center ? 2:0) | (z≥center ? 4:0)`.
Kept as a separate definition to compare builder and traversal against. -/
def octantSpecFormula (p c : Vec3) : ℕ :=
  (if p.x ≥ c.x then 1 else 0) |||
  (if p.y ≥ c.y then 2 else 0) |||
  (if p.z ≥ c.z then 4 else 0)

/-- The entry-octant computation of `traceOctree`
(`raymarching.frag` lines 134–136): note the strict `>` comparisons. -/
def entryOctantTrace (p c : Vec3) : ℕ :=
  (if p.x > c.x then 1 else 0) |||
  (if p.y > c.y then 2 else 0) |||
  (if p.z > c.z then 4 else 0)

/-- The entry-octant computation of `traceShadow`
(`raymarching.frag` lines 194–196): also strict `>`. -/
def entryOctantShadow (p c : Vec3) : ℕ :=
  (if p.x > c.x then 1 else 0) |||
  (if p.y > c.y then 2 else 0) |||
  (if p.z > c.z then 4 else 0)

/-- The `packColor` lambda of `buildOctreeFromVoxels`: each channel is
clamped to [0,1], scaled by 255 and truncated to `uint8_t`, then packed
as `(r << 24) | (g << 16) | (b << 8) | a`. -/
def packColor (c : Vec4) : ℕ :=
  let r := (⌊qclamp c.x 0 1 * 255⌋).toNat
  let g := (⌊qclamp c.y 0 1 * 255⌋).toNat
  let b := (⌊qclamp c.z 0 1 * 255⌋).toNat
  let a := (⌊qclamp c.w 0 1 * 255⌋).toNat
  (r <<< 24) ||| (g <<< 16) ||| (b <<< 8) ||| a

/-- `unpackUnorm4x8(packed).abgr` as used through `UNPACK_RGBA`:
recovers `(R, G, B, A) / 255` from `(R<<24) | (G<<16) | (B<<8) | A`. -/
def unpackColor (p : ℕ) : Vec4 :=
  ⟨((p >>> 24) &&& 255 : ℕ) / 255, ((p >>> 16) &&& 255 : ℕ) / 255,
   ((p >>> 8) &&& 255 : ℕ) / 255, ((p &&& 255 : ℕ) : ℚ) / 255⟩

/-- The builder-internal pointer tree node (`struct OctreeNode` in
`voxel_renderer.h`): an 8-bit child-existence mask, 8 owned child
pointers (`children`, absent = `none`, always a length-8 list), a
representative color and a leaf flag. -/
inductive OctreeNode : Type where
  | mk (childMask : ℕ) (children : List (Option OctreeNode)) (color : Vec4) (leaf : Bool)

def OctreeNode.maskOf : OctreeNode → ℕ
  | .mk m _ _ _ => m

def OctreeNode.childrenOf : OctreeNode → List (Option OctreeNode)
  | .mk _ cs _ _ => cs

def OctreeNode.colorOf : OctreeNode → Vec4
  | .mk _ _ c _ => c

def OctreeNode.leafOf : OctreeNode → Bool
  | .mk _ _ _ l => l

mutual

/-- Number of allocated (present) nodes in a pointer tree. -/
def countNodes : OctreeNode → ℕ
  | .mk _ cs _ _ => 1 + countList cs

def countList : List (Option OctreeNode) → ℕ
  | [] => 0
  | c :: rest => countOpt c + countList rest

def countOpt : Option OctreeNode → ℕ
  | none => 0
  | some t => countNodes t

end

/-- `MAX_DEPTH` from `voxel_renderer.cpp` (an `int`). -/
def MAX_DEPTH : ℤ := 16

/-- The bucket `subPoints[i]` of `buildOctree`: the sub-list of points whose
octant index at `center` is `i`, in input order. -/
def octantFilter (points : List Voxel) (center : Vec3) (i : ℕ) : List Voxel :=
  points.filter (fun p => octantIndexBuild p.posVec center == i)

/-- `subMin` for octant `i` (`voxel_renderer.cpp` lines 47–52). -/
def subCubeMin (mn center : Vec3) (i : ℕ) : Vec3 :=
  ⟨if i &&& 1 ≠ 0 then center.x else mn.x,
   if i &&& 2 ≠ 0 then center.y else mn.y,
   if i &&& 4 ≠ 0 then center.z else mn.z⟩

/-- `subMax` for octant `i` (`voxel_renderer.cpp` lines 47–52). -/
def subCubeMax (mx center : Vec3) (i : ℕ) : Vec3 :=
  ⟨if i &&& 1 ≠ 0 then mx.x else center.x,
   if i &&& 2 ≠ 0 then mx.y else center.y,
   if i &&& 4 ≠ 0 then mx.z else center.z⟩

def defaultVoxel : Voxel := ⟨0, 0, 0, Vec4.zero⟩

/-- `buildOctree` (`voxel_renderer.cpp` lines 20–60): empty subset gives no
node; at `depth ≥ MAX_DEPTH` or cube edge `≤ 1` a leaf takes the first
voxel's color; otherwise points are bucketed by octant and the existence
mask records which recursive children exist. -/
def buildOctree (points : List Voxel) (mn mx : Vec3) (depth : ℤ) : Option OctreeNode :=
  if points = [] then none
  else
    let nodeSize := mx.x - mn.x
    if depth ≥ MAX_DEPTH ∨ nodeSize ≤ 1 then
      some (.mk 0 (List.replicate 8 none) (points.headD defaultVoxel).color true)
    else
      let center := (mn.add mx).smul (1 / 2)
      let children := (List.range 8).map (fun i =>
        buildOctree (octantFilter points center i) (subCubeMin mn center i)
          (subCubeMax mx center i) (depth + 1))
      let cmask := (List.range 8).foldl
        (fun m i => if (children.getD i none).isSome then m ||| (1 <<< i) else m) 0
      some (.mk cmask children Vec4.zero false)
termination_by (MAX_DEPTH - depth).toNat
decreasing_by
  simp only [MAX_DEPTH] at *
  rename_i h
  rw [not_or] at h
  rcases h with ⟨h1, -⟩
  omega

/-- The existing children of a node, in ascending octant order. -/
def childrenList (cs : List (Option OctreeNode)) : List OctreeNode := cs.filterMap id

/-- Queue entries `(node, selfIdx)` for children occupying consecutive slots
starting at `s`. -/
def entriesFrom : List OctreeNode → ℕ → List (OctreeNode × ℕ)
  | [], _ => []
  | c :: rest, s => (c, s) :: entriesFrom rest (s + 1)

/-- The flattener's inner loop over the 8 child pointers
(`voxel_renderer.cpp` lines 129–139): for each existing child, remember
`childSlot = octreeData.size()`, `push_back(GPUNode{0, 0})`, and enqueue
the child with that slot. -/
def pushLoop :
    List (Option OctreeNode) → List GPUNode → List (OctreeNode × ℕ) →
      List GPUNode × List (OctreeNode × ℕ)
  | [], data, acc => (data, acc)
  | none :: rest, data, acc => pushLoop rest data acc
  | some c :: rest, data, acc =>
      pushLoop rest (data ++ [⟨0, 0⟩]) (acc ++ [(c, data.length)])

/-- In-place field update `octreeData[i] := f (octreeData[i])`. -/
def modifyAt : List GPUNode → ℕ → (GPUNode → GPUNode) → List GPUNode
  | [], _, _ => []
  | g :: rest, 0, f => f g :: rest
  | g :: rest, i + 1, f => g :: modifyAt rest i f

/-- Total number of pointer-tree nodes waiting in the worklist. -/
def queueMeasure (queue : List (OctreeNode × ℕ)) : ℕ :=
  (queue.map (fun e => countNodes e.1)).sum

theorem countNodes_eq (n : OctreeNode) : countNodes n = 1 + countList n.childrenOf := by
  cases n
  rfl

theorem countNodes_pos (n : OctreeNode) : 1 ≤ countNodes n := by
  rw [countNodes_eq]
  omega

theorem childrenList_nil : childrenList [] = [] := rfl

theorem childrenList_none (rest : List (Option OctreeNode)) :
    childrenList (none :: rest) = childrenList rest := rfl

theorem childrenList_some (c : OctreeNode) (rest : List (Option OctreeNode)) :
    childrenList (some c :: rest) = c :: childrenList rest := rfl

theorem countList_eq_sum (cs : List (Option OctreeNode)) :
    countList cs = ((childrenList cs).map countNodes).sum := by
  induction cs with
  | nil => rfl
  | cons c rest ih =>
    cases c with
    | none => simpa [countList, countOpt, childrenList_none] using ih
    | some t => simp [countList, countOpt, childrenList_some, ih]

theorem pushLoop_eq (cs : List (Option OctreeNode)) :
    ∀ data acc, pushLoop cs data acc =
      (data ++ List.replicate (childrenList cs).length ⟨0, 0⟩,
       acc ++ entriesFrom (childrenList cs) data.length) := by
  induction cs with
  | nil => intro data acc; simp [pushLoop, childrenList_nil, entriesFrom]
  | cons c rest ih =>
    intro data acc
    cases c with
    | none => simpa [pushLoop, childrenList_none] using ih data acc
    | some t =>
      rw [pushLoop, ih]
      simp [childrenList_some, entriesFrom, List.replicate_succ, List.append_assoc]
      rfl


theorem queueMeasure_cons (e : OctreeNode × ℕ) (q : List (OctreeNode × ℕ)) :
    queueMeasure (e :: q) = countNodes e.1 + queueMeasure q := by
  simp [queueMeasure]

theorem queueMeasure_append (a b : List (OctreeNode × ℕ)) :
    queueMeasure (a ++ b) = queueMeasure a + queueMeasure b := by
  simp [queueMeasure]

theorem queueMeasure_entriesFrom (l : List OctreeNode) :
    ∀ s, queueMeasure (entriesFrom l s) = (l.map countNodes).sum := by
  induction l with
  | nil => intro s; simp [entriesFrom, queueMeasure]
  | cons c rest ih => intro s; simp [entriesFrom, queueMeasure_cons, ih]

/-- The flattener's BFS worklist loop (`voxel_renderer.cpp` lines 116–144).
Each dequeued `(node, selfIdx)` writes its packed color to its slot; a leaf
writes header `0`; an internal node appends one fresh `GPUNode{0,0}` slot per
existing child (ascending octant order), enqueues those children, and writes
header `(firstChildIdx << 8) | childMask` (`uint32_t` arithmetic, hence a
`% 2 ^ 32`). -/
def flattenLoop : List (OctreeNode × ℕ) → List GPUNode → List GPUNode
  | [], data => data
  | e :: rest, data =>
    let data1 := modifyAt data e.2 (fun g => { g with color := packColor e.1.colorOf })
    if e.1.leafOf then
      flattenLoop rest (modifyAt data1 e.2 (fun g => { g with childMask := 0 }))
    else
      let firstChildIdx := data1.length % 2 ^ 32
      let pushed := pushLoop e.1.childrenOf data1 []
      flattenLoop (rest ++ pushed.2)
        (modifyAt pushed.1 e.2
          (fun g => { g with childMask := ((firstChildIdx <<< 8) % 2 ^ 32) ||| e.1.maskOf }))
termination_by queue _ => queueMeasure queue
decreasing_by
  · rw [queueMeasure_cons]
    have := countNodes_pos e.1
    omega
  · rw [queueMeasure_cons, queueMeasure_append, pushLoop_eq]
    simp only [List.nil_append, queueMeasure_entriesFrom, ← countList_eq_sum, countNodes_eq]
    omega

/-- `flatten(root)`: allocate slot 0 for the root, enqueue it, run the loop
(`voxel_renderer.cpp` lines 107–115). -/
def flattenTree (root : OctreeNode) : List GPUNode :=
  flattenLoop [(root, 0)] [⟨0, 0⟩]

/-- Initial `bmin` accumulator `glm::vec3(1e9f)` (1e9 is exactly
representable in `float`). -/
def initBMin : Vec3 := ⟨10 ^ 9, 10 ^ 9, 10 ^ 9⟩

/-- Initial `bmax` accumulator `glm::vec3(-1e9f)`. -/
def initBMax : Vec3 := ⟨-(10 ^ 9), -(10 ^ 9), -(10 ^ 9)⟩

/-- The componentwise position minimum loop of `buildOctreeFromVoxels`. -/
def computeBMin (points : List Voxel) : Vec3 :=
  points.foldl (fun a v => a.cmin v.posVec) initBMin

/-- The componentwise position maximum loop of `buildOctreeFromVoxels`. -/
def computeBMax (points : List Voxel) : Vec3 :=
  points.foldl (fun a v => a.cmax v.posVec) initBMax

/-- `extent = max(max(bmax.x-bmin.x+1, bmax.y-bmin.y+1), bmax.z-bmin.z+1)`. -/
def extentOf (points : List Voxel) : ℚ :=
  let bmin := computeBMin points
  let bmax := computeBMax points
  max (max (bmax.x - bmin.x + 1) (bmax.y - bmin.y + 1)) (bmax.z - bmin.z + 1)

/-- The power-of-two loop `pot = 1; while (pot < extent) pot *= 2;`.
The positivity of `pot` (true at the call site, `pot = 1`) is carried as a
hypothesis so the doubling terminates. -/
def potLoop (extent pot : ℚ) (hp : 0 < pot) : ℚ :=
  if pot < extent then potLoop extent (pot * 2) (by positivity) else pot
termination_by (⌈extent / pot⌉).toNat
decreasing_by
  rename_i h
  have hq : 1 < extent / pot := (one_lt_div hp).mpr h
  have hm : 1 < ⌈extent / pot⌉ := Int.lt_ceil.mpr (by exact_mod_cast hq)
  have hle : extent / pot ≤ (⌈extent / pot⌉ : ℚ) := Int.le_ceil _
  have hm2 : (2 : ℚ) ≤ (⌈extent / pot⌉ : ℚ) := by exact_mod_cast hm
  have key : ⌈extent / (pot * 2)⌉ ≤ ⌈extent / pot⌉ - 1 := by
    apply Int.ceil_le.mpr
    rw [div_mul_eq_div_div]
    push_cast
    linarith
  omega

/-- `octreeBoundsMin = glm::floor(bmin)`. -/
def boundsMinOf (points : List Voxel) : Vec3 := (computeBMin points).cfloor

/-- The power-of-two edge length of the bounding cube. -/
def edgeOf (points : List Voxel) : ℚ := potLoop (extentOf points) 1 one_pos

/-- `octreeBoundsMax = octreeBoundsMin + glm::vec3(pot)`. -/
def boundsMaxOf (points : List Voxel) : Vec3 :=
  let m := boundsMinOf points
  let e := edgeOf points
  ⟨m.x + e, m.y + e, m.z + e⟩

/-- `VoxelRenderer::buildOctreeFromVoxels` (lines 62–145): guard the empty
list, compute bounds, build the pointer tree, flatten it.  Returns the new
`(octreeBoundsMin, octreeBoundsMax, octreeData)`, or `none` when the
function returns early leaving the members untouched. -/
def buildOctreeFromVoxels (points : List Voxel) : Option (Vec3 × Vec3 × List GPUNode) :=
  if points = [] then none
  else
    match buildOctree points (boundsMinOf points) (boundsMaxOf points) 0 with
    | none => none
    | some root => some (boundsMinOf points, boundsMaxOf points, flattenTree root)

/-- `EPSILON` from `raymarching.frag`. -/
def EPSILON : ℚ := 1 / 1000000

/-- GLSL `sign`. -/
def qsign (x : ℚ) : ℚ := if x < 0 then -1 else if x = 0 then 0 else 1

/-- `rayAABB` (`raymarching.frag` lines 51–60): slab test with an epsilon
added to each direction component before inverting.  Returns
`(tNear, tFar)`; `tNear > tFar` means no intersection. -/
def rayAABB (ro rd bmin bmax : Vec3) : ℚ × ℚ :=
  let invDir := (rd.add ⟨EPSILON, EPSILON, EPSILON⟩).recipV
  let t0 := (bmin.sub ro).hmul invDir
  let t1 := (bmax.sub ro).hmul invDir
  let tmin := t0.cmin t1
  let tmax := t0.cmax t1
  (max (max tmin.x tmin.y) tmin.z, min (min tmax.x tmax.y) tmax.z)

/-- `struct StackEntry` of the traversal shader. -/
structure StackEntry where
  nodeIdx : ℕ
  bmin : Vec3
  bmax : Vec3
  tEnter : ℚ
  tExit : ℚ
  deriving DecidableEq

/-- The inputs the traversal reads besides the ray: the octree SSBO
(`nodeCount`, `nodes[]`) and the root bounds uniforms. -/
structure TraceCtx where
  nodes : List GPUNode
  nodeCount : ℤ
  rootMin : Vec3
  rootMax : Vec3

/-- Child AABB minimum (`raymarching.frag` lines 145–149). -/
def traceChildMin (bmin center : Vec3) (childIdx : ℕ) : Vec3 :=
  ⟨if childIdx &&& 1 ≠ 0 then center.x else bmin.x,
   if childIdx &&& 2 ≠ 0 then center.y else bmin.y,
   if childIdx &&& 4 ≠ 0 then center.z else bmin.z⟩

/-- Child AABB maximum (`raymarching.frag` lines 145–149). -/
def traceChildMax (bmax center : Vec3) (childIdx : ℕ) : Vec3 :=
  ⟨if childIdx &&& 1 ≠ 0 then bmax.x else center.x,
   if childIdx &&& 2 ≠ 0 then bmax.y else center.y,
   if childIdx &&& 4 ≠ 0 then bmax.z else center.z⟩

/-- `childOffset`: number of existing children at octants below `childIdx`
(`raymarching.frag` lines 154–157). -/
def countBitsBelow (mask k : ℕ) : ℕ :=
  ((List.range k).filter (fun j => mask &&& (1 <<< j) ≠ 0)).length

/-- Mutable state of the `traceOctree` while-loop: the explicit stack
(head = top, length = `sp`), the best-hit record, the hit normal and
`closestT`. -/
structure TraceState where
  stack : List StackEntry
  result : Vec4
  hitNormal : Vec3
  closestT : ℚ
  deriving DecidableEq

def noHitVec : Vec4 := ⟨0, 0, 0, -1⟩

/-- One iteration of the `traceOctree` while-loop (`raymarching.frag`
lines 96–166): pop; prune against `closestT`; record a leaf hit (existence
mask 0) together with its entry-face normal; or push the existing,
intersecting children in `i XOR entryOctant` order for `i = 7 downto 0`,
each push guarded by `sp < 64`. -/
def stepTrace (ctx : TraceCtx) (ro rd : Vec3) (s : TraceState) : TraceState :=
  match s.stack with
  | [] => s
  | entry :: rest =>
    if entry.tEnter > s.closestT then { s with stack := rest }
    else
      let node := ctx.nodes.getD entry.nodeIdx ⟨0, 0⟩
      let existMask := node.childMask &&& 255
      if existMask = 0 then
        if entry.tEnter < s.closestT then
          let invDir := rd.recipV
          let t0 := (entry.bmin.sub ro).hmul invDir
          let t1 := (entry.bmax.sub ro).hmul invDir
          let tNearV := t0.cmin t1
          let u := unpackColor node.color
          let n : Vec3 :=
            if tNearV.x > tNearV.y ∧ tNearV.x > tNearV.z then ⟨-qsign rd.x, 0, 0⟩
            else if tNearV.y > tNearV.z then ⟨0, -qsign rd.y, 0⟩
            else ⟨0, 0, -qsign rd.z⟩
          { stack := rest, result := ⟨u.x, u.y, u.z, entry.tEnter⟩,
            hitNormal := n, closestT := entry.tEnter }
        else { s with stack := rest }
      else
        let firstChildIdx := node.childMask >>> 8
        let center := (entry.bmin.add entry.bmax).smul (1 / 2)
        let eo := entryOctantTrace (ro.add (rd.smul entry.tEnter)) center
        let stack2 := (List.range 8).reverse.foldl (fun st i =>
          let childIdx := i ^^^ eo
          if existMask &&& (1 <<< childIdx) = 0 then st
          else
            let cmin := traceChildMin entry.bmin center childIdx
            let cmax := traceChildMax entry.bmax center childIdx
            let t := rayAABB ro rd cmin cmax
            if t.1 ≤ t.2 ∧ t.2 ≥ 0 ∧ t.1 < s.closestT then
              if st.length < 64 then
                ⟨firstChildIdx + countBitsBelow existMask childIdx, cmin, cmax,
                 max t.1 0, t.2⟩ :: st
              else st
            else st) rest
        { s with stack := stack2 }

/-- The `traceOctree` while-loop, run for at most `fuel` iterations
(a malformed node buffer can make the GLSL loop cycle, so the model is
fuel-indexed; every claim below holds for every fuel). -/
def traceLoop : ℕ → TraceCtx → Vec3 → Vec3 → TraceState → TraceState
  | 0, _, _, _, s => s
  | fuel + 1, ctx, ro, rd, s =>
    if s.stack = [] then s else traceLoop fuel ctx ro rd (stepTrace ctx ro rd s)

/-- `traceOctree` (`raymarching.frag` lines 74–169): returns the hit
color+distance `vec4` (distance `-1` = miss) and the out-parameter
`hitNormal`. -/
def traceOctree (fuel : ℕ) (ctx : TraceCtx) (ro rd : Vec3) : Vec4 × Vec3 :=
  if ctx.nodeCount ≤ 0 then (noHitVec, Vec3.zero)
  else
    let tRoot := rayAABB ro rd ctx.rootMin ctx.rootMax
    if tRoot.1 > tRoot.2 ∨ tRoot.2 < 0 then (noHitVec, Vec3.zero)
    else
      let s := traceLoop fuel ctx ro rd
        ⟨[⟨0, ctx.rootMin, ctx.rootMax, max tRoot.1 0, tRoot.2⟩], noHitVec, Vec3.zero, 10 ^ 10⟩
      (s.result, s.hitNormal)

/-- Mutable state of the `traceShadow` while-loop; `found = some true`
records the early `return true` on popping a leaf. -/
structure ShadowState where
  stack : List StackEntry
  found : Option Bool
  deriving DecidableEq

/-- One iteration of the `traceShadow` while-loop (`raymarching.frag`
lines 184–217): pop; a leaf returns `true`; otherwise push existing,
intersecting children (no `closestT` pruning), each push guarded by
`sp < 64`. -/
def stepShadow (ctx : TraceCtx) (ro rd : Vec3) (s : ShadowState) : ShadowState :=
  match s.found with
  | some _ => s
  | none =>
    match s.stack with
    | [] => s
    | entry :: rest =>
      let node := ctx.nodes.getD entry.nodeIdx ⟨0, 0⟩
      let existMask := node.childMask &&& 255
      if existMask = 0 then { stack := rest, found := some true }
      else
        let firstChildIdx := node.childMask >>> 8
        let center := (entry.bmin.add entry.bmax).smul (1 / 2)
        let eo := entryOctantShadow (ro.add (rd.smul entry.tEnter)) center
        let stack2 := (List.range 8).reverse.foldl (fun st i =>
          let childIdx := i ^^^ eo
          if existMask &&& (1 <<< childIdx) = 0 then st
          else
            let cmin := traceChildMin entry.bmin center childIdx
            let cmax := traceChildMax entry.bmax center childIdx
            let t := rayAABB ro rd cmin cmax
            if t.1 ≤ t.2 ∧ t.2 ≥ 0 then
              if st.length < 64 then
                ⟨firstChildIdx + countBitsBelow existMask childIdx, cmin, cmax,
                 max t.1 0, t.2⟩ :: st
              else st
            else st) rest
        { s with stack := stack2 }

/-- The `traceShadow` while-loop, fuel-indexed like `traceLoop`. -/
def shadowLoop : ℕ → TraceCtx → Vec3 → Vec3 → ShadowState → ShadowState
  | 0, _, _, _, s => s
  | fuel + 1, ctx, ro, rd, s =>
    if s.found.isSome ∨ s.stack = [] then s
    else shadowLoop fuel ctx ro rd (stepShadow ctx ro rd s)

/-- `traceShadow` (`raymarching.frag` lines 171–219). -/
def traceShadow (fuel : ℕ) (ctx : TraceCtx) (ro rd : Vec3) : Bool :=
  if ctx.nodeCount ≤ 0 then false
  else
    let tRoot := rayAABB ro rd ctx.rootMin ctx.rootMax
    if tRoot.1 > tRoot.2 ∨ tRoot.2 < 0 then false
    else
      ((shadowLoop fuel ctx ro rd
        ⟨[⟨0, ctx.rootMin, ctx.rootMax, max tRoot.1 0, tRoot.2⟩], none⟩).found).getD false

/-- `MAX_AO_SAMPLES` from `raymarching.frag`. -/
def MAX_AO_SAMPLES : ℕ := 16

/-- The accumulation loop of `ao` (`raymarching.frag` lines 226–241).
The per-sample ray direction is produced by a `sin`-based hash
(transcendental, outside ℚ), so the loop is parameterized by the abstract
nearest-hit distance `hitA i` that `traceOctree` returns for sample `i`;
the occlusion arithmetic — the break at `u_aoSampleCount`, the
`hit.a >= 0 && hit.a < 4` test, `occ += sca` and `sca *= 0.5` — is
modelled exactly. -/
def aoLoop (hitA : ℕ → ℚ) (count : ℤ) (i : ℕ) (occ sca : ℚ) : ℚ :=
  if i < MAX_AO_SAMPLES then
    if (i : ℤ) ≥ count then occ
    else aoLoop hitA count (i + 1)
      (if 0 ≤ hitA i ∧ hitA i < 4 then occ + sca else occ) (sca * (1 / 2))
  else occ
termination_by MAX_AO_SAMPLES - i
decreasing_by
  rename_i h _
  simp only [MAX_AO_SAMPLES] at *
  omega

/-- Number of `traceOctree` evaluations the `ao` loop performs: one per
iteration that passes both the `i < MAX_AO_SAMPLES` bound and the
`i >= u_aoSampleCount` break. -/
def aoEvalCount (count : ℤ) (i : ℕ) : ℕ :=
  if i < MAX_AO_SAMPLES then
    if (i : ℤ) ≥ count then 0 else 1 + aoEvalCount count (i + 1)
  else 0
termination_by MAX_AO_SAMPLES - i
decreasing_by
  rename_i h _
  simp only [MAX_AO_SAMPLES] at *
  omega

/-- `ao(pos, norm)`: the accumulated occlusion, clamped to [0,1]. -/
def aoResult (hitA : ℕ → ℚ) (count : ℤ) : ℚ :=
  qclamp (aoLoop hitA count 0 0 1) 0 1

/-- `GPUVoxel`: `posAndSize = vec4(position, 0)`, `color`. -/
structure GPUVoxelRec where
  posAndSize : Vec4
  color : Vec4
  deriving DecidableEq

def toGPUVoxel (v : Voxel) : GPUVoxelRec :=
  ⟨⟨(v.px : ℚ), (v.py : ℚ), (v.pz : ℚ), 0⟩, v.color⟩

/-- The `VoxelRenderer` members the dirty-flag protocol touches, plus a
model of the two GL buffers (`some` = last uploaded contents) and a ghost
counter of successful octree uploads used to state the
at-most-one-upload-per-frame property. -/
structure RendererState where
  voxelData : List GPUVoxelRec
  octreeData : List GPUNode
  obMin : Vec3
  obMax : Vec3
  voxelDataDirty : Bool
  octreeDataDirty : Bool
  gpuVoxelBuf : Option (List GPUVoxelRec)
  gpuOctreeBuf : Option (List GPUNode)
  octreeUploadCount : ℕ
  deriving DecidableEq

/-- The `VoxelRenderer` constructor (lines 147–162): `voxelDataDirty(true)`,
`octreeDataDirty(false)`, default bounds `±128`. -/
def initialRenderer : RendererState :=
  { voxelData := [], octreeData := [],
    obMin := ⟨-128, -128, -128⟩, obMax := ⟨128, 128, 128⟩,
    voxelDataDirty := true, octreeDataDirty := false,
    gpuVoxelBuf := none, gpuOctreeBuf := none, octreeUploadCount := 0 }

/-- `VoxelRenderer::setVoxels` (lines 291–307): refill `voxelData`, set the
voxel dirty flag, rebuild the octree (`buildOctreeFromVoxels`, which leaves
the members untouched when it returns early), then set the octree dirty
flag. -/
def RendererState.setVoxels (s : RendererState) (voxels : List Voxel) : RendererState :=
  let s1 := { s with voxelData := voxels.map toGPUVoxel, voxelDataDirty := true }
  let s2 :=
    match buildOctreeFromVoxels voxels with
    | none => s1
    | some (mn, mx, data) => { s1 with obMin := mn, obMax := mx, octreeData := data }
  { s2 with octreeDataDirty := true }

/-- `VoxelRenderer::addVoxel` (lines 309–316): appends to `voxelData` and
sets only the voxel dirty flag. -/
def RendererState.addVoxel (s : RendererState) (v : Voxel) : RendererState :=
  { s with voxelData := s.voxelData ++ [toGPUVoxel v], voxelDataDirty := true }

/-- `VoxelRenderer::clearVoxels` (lines 318–322): clears `voxelData` and
sets only the voxel dirty flag. -/
def RendererState.clearVoxels (s : RendererState) : RendererState :=
  { s with voxelData := [], voxelDataDirty := true }

/-- `VoxelRenderer::uploadVoxelData` (lines 214–237). -/
def RendererState.uploadVoxelData (s : RendererState) : RendererState :=
  if ¬s.voxelDataDirty then s
  else { s with gpuVoxelBuf := some s.voxelData, voxelDataDirty := false }

/-- `VoxelRenderer::uploadOctreeData` (lines 239–255): does nothing unless
the octree dirty flag is set; returns early (leaving the flag set) when
`octreeData` is empty; otherwise uploads and clears the flag (the ghost
upload counter records the successful upload). -/
def RendererState.uploadOctreeData (s : RendererState) : RendererState :=
  if ¬s.octreeDataDirty then s
  else if s.octreeData = [] then s
  else { s with gpuOctreeBuf := some s.octreeData, octreeDataDirty := false,
                octreeUploadCount := s.octreeUploadCount + 1 }

/-- The upload prefix of `VoxelRenderer::render` (lines 257–260). -/
def RendererState.render (s : RendererState) : RendererState :=
  s.uploadVoxelData.uploadOctreeData

/-- A voxel-set mutation: one of the three public mutators. -/
inductive VoxelMutation : Type where
  | set (voxels : List Voxel)
  | add (v : Voxel)
  | clear

def applyMutation (s : RendererState) : VoxelMutation → RendererState
  | .set vs => s.setVoxels vs
  | .add v => s.addVoxel v
  | .clear => s.clearVoxels

/-- A batch of mutations applied between two frames. -/
def applyMutations (s : RendererState) (ms : List VoxelMutation) : RendererState :=
  ms.foldl applyMutation s

theorem foldl_preserve_le64 (f : List StackEntry → ℕ → List StackEntry)
    (hf : ∀ st b, st.length ≤ 64 → (f st b).length ≤ 64) :
    ∀ (l : List ℕ) (st : List StackEntry), st.length ≤ 64 → (l.foldl f st).length ≤ 64 := by
  intro l
  induction l with
  | nil => intro st h; simpa using h
  | cons b rest ih => intro st h; exact ih (f st b) (hf st b h)

theorem stepTrace_stack_le (ctx : TraceCtx) (ro rd : Vec3) (s : TraceState)
    (h : s.stack.length ≤ 64) : (stepTrace ctx ro rd s).stack.length ≤ 64 := by
  unfold stepTrace
  cases hs : s.stack with
  | nil => simpa [hs] using h
  | cons entry rest =>
    have hrest : rest.length ≤ 64 := by
      rw [hs] at h
      simpa using Nat.le_of_succ_le h
    simp only []
    split_ifs <;>
      first
      | simpa using hrest
      | · apply foldl_preserve_le64
          · intro st b hst
            dsimp only
            split_ifs with hb hc hd
            · exact hst
            · simp; omega
            · exact hst
            · exact hst
          · exact hrest

theorem traceLoop_stack_le (fuel : ℕ) (ctx : TraceCtx) (ro rd : Vec3) :
    ∀ s : TraceState, s.stack.length ≤ 64 →
      (traceLoop fuel ctx ro rd s).stack.length ≤ 64 := by
  induction fuel with
  | zero => intro s h; simpa [traceLoop] using h
  | succ n ih =>
    intro s h
    rw [traceLoop]
    split_ifs with he
    · exact h
    · exact ih _ (stepTrace_stack_le ctx ro rd s h)

theorem stepShadow_stack_le (ctx : TraceCtx) (ro rd : Vec3) (s : ShadowState)
    (h : s.stack.length ≤ 64) : (stepShadow ctx ro rd s).stack.length ≤ 64 := by
  unfold stepShadow
  cases hf : s.found with
  | some b => simpa [hf] using h
  | none =>
    cases hs : s.stack with
    | nil => simpa [hs] using h
    | cons entry rest =>
      have hrest : rest.length ≤ 64 := by
        rw [hs] at h
        simpa using Nat.le_of_succ_le h
      simp only []
      split_ifs <;>
        first
        | simpa using hrest
        | · apply foldl_preserve_le64
            · intro st b hst
              dsimp only
              split_ifs with hb hc hd
              · exact hst
              · simp; omega
              · exact hst
              · exact hst
            · exact hrest

theorem shadowLoop_stack_le (fuel : ℕ) (ctx : TraceCtx) (ro rd : Vec3) :
    ∀ s : ShadowState, s.stack.length ≤ 64 →
      (shadowLoop fuel ctx ro rd s).stack.length ≤ 64 := by
  induction fuel with
  | zero => intro s h; simpa [shadowLoop] using h
  | succ n ih =>
    intro s h
    rw [shadowLoop]
    split_ifs with he
    · exact h
    · exact ih _ (stepShadow_stack_le ctx ro rd s h)

/-- C2 counterexample: the claim says builder and traversal use the
identical octant function `(p≥c ? bit : 0)`.  At a point lying exactly on
the center (where `≥` holds but `>` does not) the traversal's
entry-octant computation (strict `>`) disagrees with the claimed formula
(which the builder implements): the builder files the point in octant 7,
the traversal computes entry octant 0. -/
theorem octant_formula_counterexample :
    entryOctantTrace ⟨0, 0, 0⟩ ⟨0, 0, 0⟩ ≠ octantSpecFormula ⟨0, 0, 0⟩ ⟨0, 0, 0⟩ := by
  simp [entryOctantTrace, octantSpecFormula]

/-- C2 (amended): the builder's octant index is exactly the spec formula
`(x≥c ? 1:0)|(y≥c ? 2:0)|(z≥c ? 4:0)`; `traceOctree` and `traceShadow`
share one entry-octant function, which uses strict `>` instead of `≥`;
builder and traversal therefore agree at every point that does not lie on
one of the three center planes (and can disagree on those planes). -/
theorem octant_functions_agreement :
    (∀ p c : Vec3, octantIndexBuild p c = octantSpecFormula p c) ∧
    (∀ p c : Vec3, entryOctantTrace p c = entryOctantShadow p c) ∧
    (∀ p c : Vec3, p.x ≠ c.x → p.y ≠ c.y → p.z ≠ c.z →
      entryOctantTrace p c = octantIndexBuild p c ∧
      entryOctantShadow p c = octantIndexBuild p c) := by
  refine ⟨fun p c => rfl, fun p c => rfl, fun p c hx hy hz => ?_⟩
  have ex : (p.x > c.x) = (p.x ≥ c.x) :=
    propext ⟨le_of_lt, fun h => lt_of_le_of_ne h (Ne.symm hx)⟩
  have ey : (p.y > c.y) = (p.y ≥ c.y) :=
    propext ⟨le_of_lt, fun h => lt_of_le_of_ne h (Ne.symm hy)⟩
  have ez : (p.z > c.z) = (p.z ≥ c.z) :=
    propext ⟨le_of_lt, fun h => lt_of_le_of_ne h (Ne.symm hz)⟩
  constructor
  · simp only [entryOctantTrace, octantIndexBuild, ex, ey, ez]
  · simp only [entryOctantShadow, octantIndexBuild, ex, ey, ez]

/-- Witness for `octant_functions_agreement` at the off-plane point
`(1, 2, 3)` against center `(0, 0, 0)`. -/
theorem octant_functions_agreement_witness :
    entryOctantTrace ⟨1, 2, 3⟩ ⟨0, 0, 0⟩ = octantIndexBuild ⟨1, 2, 3⟩ ⟨0, 0, 0⟩ ∧
    entryOctantShadow ⟨1, 2, 3⟩ ⟨0, 0, 0⟩ = octantIndexBuild ⟨1, 2, 3⟩ ⟨0, 0, 0⟩ :=
  octant_functions_agreement.2.2 ⟨1, 2, 3⟩ ⟨0, 0, 0⟩
    (by norm_num) (by norm_num) (by norm_num)

/-- C3: in `traceOctree` and `traceShadow` every push is guarded by
`sp < 64`, so from any state whose stack holds at most 64 entries, one
loop iteration — and hence any number of loop iterations — again leaves at
most 64 entries; the initial stack of either routine holds the single root
entry.  All stack accesses in the model are on the list of live entries
`0 .. sp-1`, so no access leaves `0 .. 63`. -/
theorem traversal_stack_bounded :
    (∀ (ctx : TraceCtx) (ro rd : Vec3) (s : TraceState), s.stack.length ≤ 64 →
      (stepTrace ctx ro rd s).stack.length ≤ 64) ∧
    (∀ (fuel : ℕ) (ctx : TraceCtx) (ro rd : Vec3) (s : TraceState), s.stack.length ≤ 64 →
      (traceLoop fuel ctx ro rd s).stack.length ≤ 64) ∧
    (∀ (ctx : TraceCtx) (ro rd : Vec3) (s : ShadowState), s.stack.length ≤ 64 →
      (stepShadow ctx ro rd s).stack.length ≤ 64) ∧
    (∀ (fuel : ℕ) (ctx : TraceCtx) (ro rd : Vec3) (s : ShadowState), s.stack.length ≤ 64 →
      (shadowLoop fuel ctx ro rd s).stack.length ≤ 64) :=
  ⟨stepTrace_stack_le, fun fuel ctx ro rd => traceLoop_stack_le fuel ctx ro rd,
   stepShadow_stack_le, fun fuel ctx ro rd => shadowLoop_stack_le fuel ctx ro rd⟩

/-- Witness for `traversal_stack_bounded` on a concrete one-entry stack. -/
theorem traversal_stack_bounded_witness :
    (traceLoop 5 ⟨[⟨7, 0⟩], 1, Vec3.zero, Vec3.zero⟩ Vec3.zero Vec3.zero
      ⟨[⟨0, Vec3.zero, Vec3.zero, 0, 1⟩], noHitVec, Vec3.zero, 10 ^ 10⟩).stack.length ≤ 64 :=
  traversal_stack_bounded.2.1 5 _ Vec3.zero Vec3.zero _ (by simp)

/-- C7: both traversal routines return their no-hit result without running
the traversal loop when the node count is `≤ 0`, and likewise when the
root slab test misses (`tNear > tFar` or `tFar < 0`): `traceOctree`
returns the sentinel result `(0,0,0,-1)` (distance −1) and `traceShadow`
returns `false`. -/
theorem trace_early_miss :
    ∀ (fuel : ℕ) (ctx : TraceCtx) (ro rd : Vec3),
      (ctx.nodeCount ≤ 0 →
        traceOctree fuel ctx ro rd = (noHitVec, Vec3.zero) ∧
        traceShadow fuel ctx ro rd = false) ∧
      ((rayAABB ro rd ctx.rootMin ctx.rootMax).1 > (rayAABB ro rd ctx.rootMin ctx.rootMax).2 ∨
          (rayAABB ro rd ctx.rootMin ctx.rootMax).2 < 0 →
        traceOctree fuel ctx ro rd = (noHitVec, Vec3.zero) ∧
        traceShadow fuel ctx ro rd = false) := by
  intro fuel ctx ro rd
  constructor
  · intro h
    constructor
    · unfold traceOctree
      rw [if_pos h]
    · unfold traceShadow
      rw [if_pos h]
  · intro h
    constructor
    · unfold traceOctree
      by_cases h1 : ctx.nodeCount ≤ 0
      · rw [if_pos h1]
      · rw [if_neg h1]
        dsimp only
        rw [if_pos h]
    · unfold traceShadow
      by_cases h1 : ctx.nodeCount ≤ 0
      · rw [if_pos h1]
      · rw [if_neg h1]
        dsimp only
        rw [if_pos h]

/-- Witness for `trace_early_miss`: an empty octree (`nodeCount = 0`) and a
ray whose root slab test misses (`tFar < 0`). -/
theorem trace_early_miss_witness :
    traceOctree 3 ⟨[], 0, Vec3.zero, Vec3.zero⟩ ⟨2, 2, 2⟩ ⟨0, 0, 0⟩ = (noHitVec, Vec3.zero) ∧
    traceShadow 3 ⟨[], 0, Vec3.zero, Vec3.zero⟩ ⟨2, 2, 2⟩ ⟨0, 0, 0⟩ = false ∧
    traceOctree 3 ⟨[⟨0, 0⟩], 1, Vec3.zero, Vec3.zero⟩ ⟨2, 2, 2⟩ ⟨0, 0, 0⟩ = (noHitVec, Vec3.zero) := by
  have h1 := (trace_early_miss 3 ⟨[], 0, Vec3.zero, Vec3.zero⟩ ⟨2, 2, 2⟩ ⟨0, 0, 0⟩).1
    (by norm_num)
  have h2 := (trace_early_miss 3 ⟨[⟨0, 0⟩], 1, Vec3.zero, Vec3.zero⟩ ⟨2, 2, 2⟩ ⟨0, 0, 0⟩).2
    (by
      right
      norm_num [rayAABB, Vec3.recipV, Vec3.add, Vec3.sub, Vec3.hmul, Vec3.cmin, Vec3.cmax,
        Vec3.zero, EPSILON])
  exact ⟨h1.1, h1.2, h2.1⟩

/-- C8 counterexample: the claim says every voxel-set mutation
(`setVoxels`, `addVoxel`, `clearVoxels`) leaves the octree dirty flag set.
Running `clearVoxels` on the freshly constructed renderer (whose
constructor initializes `octreeDataDirty = false`) leaves the flag
`false`: `clearVoxels` (and likewise `addVoxel`) sets only
`voxelDataDirty`. -/
theorem mutation_dirty_flag_counterexample :
    (initialRenderer.clearVoxels).octreeDataDirty = false := rfl

/-- C8 (amended): `setVoxels` always leaves the octree dirty flag set,
while `addVoxel` and `clearVoxels` set only the voxel-data dirty flag and
leave the octree flag unchanged; the octree flag is cleared only by a
successful upload in `uploadOctreeData` (which records the buffer and
bumps the upload counter — an early return on a clean flag or empty data
changes nothing); mutations never upload, and a whole batch of mutations
followed by the next frame's `render` performs at most one octree
upload. -/
theorem dirty_flag_protocol :
    (∀ (s : RendererState) (vs : List Voxel), (s.setVoxels vs).octreeDataDirty = true) ∧
    (∀ (s : RendererState) (v : Voxel),
      (s.addVoxel v).octreeDataDirty = s.octreeDataDirty ∧
      (s.addVoxel v).voxelDataDirty = true) ∧
    (∀ s : RendererState,
      s.clearVoxels.octreeDataDirty = s.octreeDataDirty ∧
      s.clearVoxels.voxelDataDirty = true) ∧
    (∀ s : RendererState, s.uploadOctreeData.octreeDataDirty = false →
      s.octreeDataDirty = false ∨
      (s.octreeData ≠ [] ∧ s.uploadOctreeData.gpuOctreeBuf = some s.octreeData ∧
        s.uploadOctreeData.octreeUploadCount = s.octreeUploadCount + 1)) ∧
    (∀ (s : RendererState) (ms : List VoxelMutation),
      (applyMutations s ms).octreeUploadCount = s.octreeUploadCount) ∧
    (∀ (s : RendererState) (ms : List VoxelMutation),
      (applyMutations s ms).render.octreeUploadCount ≤ s.octreeUploadCount + 1) := by
  have hset : ∀ (s : RendererState) (vs : List Voxel),
      (s.setVoxels vs).octreeDataDirty = true := by
    intro s vs
    unfold RendererState.setVoxels
    cases buildOctreeFromVoxels vs with
    | none => rfl
    | some val => rfl
  have hmut : ∀ (s : RendererState) (ms : List VoxelMutation),
      (applyMutations s ms).octreeUploadCount = s.octreeUploadCount := by
    intro s ms
    induction ms generalizing s with
    | nil => rfl
    | cons m rest ih =>
      rw [applyMutations, List.foldl_cons, ← applyMutations]
      rw [ih]
      cases m with
      | set vs =>
        show (s.setVoxels vs).octreeUploadCount = s.octreeUploadCount
        unfold RendererState.setVoxels
        cases buildOctreeFromVoxels vs with
        | none => rfl
        | some val => rfl
      | add v => rfl
      | clear => rfl
  have hupload : ∀ s : RendererState,
      s.render.octreeUploadCount ≤ s.octreeUploadCount + 1 := by
    intro s
    unfold RendererState.render RendererState.uploadOctreeData RendererState.uploadVoxelData
    split_ifs <;> simp
  refine ⟨hset, fun s v => ⟨rfl, rfl⟩, fun s => ⟨rfl, rfl⟩, ?_, hmut, ?_⟩
  · intro s h
    by_cases h1 : s.octreeDataDirty
    · right
      unfold RendererState.uploadOctreeData at h ⊢
      rw [if_neg (by simpa using h1)] at h ⊢
      by_cases h2 : s.octreeData = []
      · rw [if_pos h2] at h
        simp [h1] at h
      · rw [if_neg h2] at h ⊢
        exact ⟨h2, rfl, rfl⟩
    · left
      simpa using h1
  · intro s ms
    calc (applyMutations s ms).render.octreeUploadCount
        ≤ (applyMutations s ms).octreeUploadCount + 1 := hupload _
      _ = s.octreeUploadCount + 1 := by rw [hmut]

/-- A concrete dirty renderer state with nonempty octree data. -/
def dirtyRendererW : RendererState :=
  { initialRenderer with octreeDataDirty := true, octreeData := [⟨0, 5⟩] }

/-- Witness for `dirty_flag_protocol`: the upload-clears-flag clause at a
concrete dirty state with nonempty octree data. -/
theorem dirty_flag_protocol_witness :
    dirtyRendererW.octreeDataDirty = false ∨
    (dirtyRendererW.octreeData ≠ [] ∧
      dirtyRendererW.uploadOctreeData.gpuOctreeBuf = some dirtyRendererW.octreeData ∧
      dirtyRendererW.uploadOctreeData.octreeUploadCount =
        dirtyRendererW.octreeUploadCount + 1) :=
  dirty_flag_protocol.2.2.2.1 dirtyRendererW (by rfl)

/-- The geometric-falloff weight sum the `ao` loop accumulates: sample
`i + j` (for `j` below the remaining sample budget `L - i`) contributes
`(1/2)^j` of the scale current at iteration `i` when its hit distance lies
in `[0, 4)`. -/
def aoWeightSum (hitA : ℕ → ℚ) (L i : ℕ) : ℚ :=
  ∑ j in Finset.range (L - i),
    (if 0 ≤ hitA (i + j) ∧ hitA (i + j) < 4 then (1 / 2 : ℚ) ^ j else 0)

theorem aoWeightSum_succ (hitA : ℕ → ℚ) (L i : ℕ) (h : i < L) :
    aoWeightSum hitA L i =
      (if 0 ≤ hitA i ∧ hitA i < 4 then 1 else 0) + (1 / 2) * aoWeightSum hitA L (i + 1) := by
  unfold aoWeightSum
  have hL : L - i = (L - (i + 1)) + 1 := by omega
  rw [hL, Finset.sum_range_succ']
  have hsum : (∑ x in Finset.range (L - (i + 1)),
        (if 0 ≤ hitA (i + (x + 1)) ∧ hitA (i + (x + 1)) < 4 then (1 / 2 : ℚ) ^ (x + 1) else 0))
      = (1 / 2) * ∑ x in Finset.range (L - (i + 1)),
        (if 0 ≤ hitA (i + 1 + x) ∧ hitA (i + 1 + x) < 4 then (1 / 2 : ℚ) ^ x else 0) := by
    rw [Finset.mul_sum]
    apply Finset.sum_congr rfl
    intro j hj
    have hij : i + (j + 1) = i + 1 + j := by omega
    rw [hij, pow_succ]
    by_cases hP : 0 ≤ hitA (i + 1 + j) ∧ hitA (i + 1 + j) < 4
    · rw [if_pos hP, if_pos hP]; ring
    · rw [if_neg hP, if_neg hP]; ring
  rw [hsum, add_comm]
  congr 1

theorem aoLoop_eq (hitA : ℕ → ℚ) (count : ℤ) (hc : 0 ≤ count) :
    ∀ (n i : ℕ) (occ sca : ℚ), MAX_AO_SAMPLES - i ≤ n →
      aoLoop hitA count i occ sca =
        occ + sca * aoWeightSum hitA (min count.toNat MAX_AO_SAMPLES) i := by
  intro n
  induction n with
  | zero =>
    intro i occ sca h
    have hi : ¬ i < MAX_AO_SAMPLES := by simp [MAX_AO_SAMPLES] at *; omega
    rw [aoLoop, if_neg hi]
    have h0 : min count.toNat MAX_AO_SAMPLES - i = 0 := by
      simp [MAX_AO_SAMPLES] at *; omega
    simp [aoWeightSum, h0]
  | succ n ih =>
    intro i occ sca h
    rw [aoLoop]
    by_cases h16 : i < MAX_AO_SAMPLES
    · rw [if_pos h16]
      by_cases hic : (i : ℤ) ≥ count
      · rw [if_pos hic]
        have h0 : min count.toNat MAX_AO_SAMPLES - i = 0 := by omega
        simp [aoWeightSum, h0]
      · rw [if_neg hic]
        rw [ih (i + 1) _ _ (by simp [MAX_AO_SAMPLES] at *; omega)]
        have hiL : i < min count.toNat MAX_AO_SAMPLES := by
          simp [MAX_AO_SAMPLES] at *; omega
        rw [aoWeightSum_succ hitA _ i hiL]
        by_cases hP : 0 ≤ hitA i ∧ hitA i < 4
        · rw [if_pos hP, if_pos hP]; ring
        · rw [if_neg hP, if_neg hP]; ring
    · rw [if_neg h16]
      have h0 : min count.toNat MAX_AO_SAMPLES - i = 0 := by
        simp [MAX_AO_SAMPLES] at *; omega
      simp [aoWeightSum, h0]

theorem aoEvalCount_eq (count : ℤ) (hc : 0 ≤ count) :
    ∀ n i, MAX_AO_SAMPLES - i ≤ n →
      aoEvalCount count i = min count.toNat MAX_AO_SAMPLES - i := by
  intro n
  induction n with
  | zero =>
    intro i h
    have hi : ¬ i < MAX_AO_SAMPLES := by simp [MAX_AO_SAMPLES] at *; omega
    rw [aoEvalCount, if_neg hi]
    simp [MAX_AO_SAMPLES] at *
    omega
  | succ n ih =>
    intro i h
    rw [aoEvalCount]
    by_cases h16 : i < MAX_AO_SAMPLES
    · rw [if_pos h16]
      by_cases hic : (i : ℤ) ≥ count
      · rw [if_pos hic]
        omega
      · rw [if_neg hic]
        rw [ih (i + 1) (by simp [MAX_AO_SAMPLES] at *; omega)]
        simp [MAX_AO_SAMPLES] at *
        omega
    · rw [if_neg h16]
      simp [MAX_AO_SAMPLES] at *
      omega

/-- C9: for a nonnegative `u_aoSampleCount`, the `ao` loop evaluates
exactly `min(u_aoSampleCount, MAX_AO_SAMPLES)` occlusion samples
(`MAX_AO_SAMPLES = 16`), the `i`-th (0-based) sample contributes weight
`(1/2)^i` exactly when its nearest-hit distance lies in `[0, 4)`, and the
accumulated occlusion is clamped to `[0, 1]`.  The loop is parameterized
by the abstract per-sample hit distances (the `sin`-hash directions are
transcendental), which the claim quantifies over anyway. -/
theorem ao_sampling_spec :
    ∀ (hitA : ℕ → ℚ) (count : ℤ), 0 ≤ count →
      (aoEvalCount count 0 = min count.toNat MAX_AO_SAMPLES ∧
        (aoEvalCount count 0 : ℤ) ≤ min count 16) ∧
      aoResult hitA count =
        qclamp (∑ j in Finset.range (min count.toNat MAX_AO_SAMPLES),
          (if 0 ≤ hitA j ∧ hitA j < 4 then (1 / 2 : ℚ) ^ j else 0)) 0 1 ∧
      0 ≤ aoResult hitA count ∧ aoResult hitA count ≤ 1 := by
  intro hitA count hc
  have he := aoEvalCount_eq count hc MAX_AO_SAMPLES 0 (by omega)
  refine ⟨⟨by simpa using he, ?_⟩, ?_, ?_, ?_⟩
  · rw [he]
    simp [MAX_AO_SAMPLES]
    omega
  · have hl := aoLoop_eq hitA count hc MAX_AO_SAMPLES 0 0 1 (by omega)
    unfold aoResult
    rw [hl]
    simp [aoWeightSum]
  · unfold aoResult qclamp
    exact le_min (le_max_right _ _) zero_le_one
  · unfold aoResult qclamp
    exact min_le_right _ _

/-- Witness for `ao_sampling_spec` at `u_aoSampleCount = 2`. -/
theorem ao_sampling_spec_witness : aoEvalCount 2 0 = 2 := by
  have h := ((ao_sampling_spec (fun _ => 0) 2 (by norm_num)).1).1
  exact h.trans (by decide)

theorem buildOctree_empty (mn mx : Vec3) (depth : ℤ) : buildOctree [] mn mx depth = none := by
  rw [buildOctree]
  simp

theorem buildOctree_eq_none_iff (points : List Voxel) (mn mx : Vec3) (depth : ℤ) :
    buildOctree points mn mx depth = none ↔ points = [] := by
  constructor
  · intro h
    by_contra hne
    rw [buildOctree, if_neg hne] at h
    dsimp only at h
    split_ifs at h
  · intro h
    subst h
    exact buildOctree_empty mn mx depth

theorem testBit_orFold (g : ℕ → Bool) (k : ℕ) :
    ∀ (l : List ℕ) (m : ℕ),
      ((l.foldl (fun acc i => if g i then acc ||| 1 <<< i else acc) m).testBit k)
        = (m.testBit k || (g k && decide (k ∈ l))) := by
  intro l
  induction l with
  | nil => intro m; simp
  | cons i rest ih =>
    intro m
    rw [List.foldl_cons, ih]
    by_cases hg : g i
    · rw [if_pos hg]
      by_cases hik : i = k
      · subst hik
        simp [hg, Nat.testBit_or, Nat.one_shiftLeft, Nat.testBit_two_pow_self]
      · simp [hg, Nat.testBit_or, Nat.one_shiftLeft, Nat.testBit_two_pow_of_ne hik,
          List.mem_cons, Ne.symm hik]
    · rw [if_neg hg]
      by_cases hik : i = k
      · subst hik
        simp [hg, List.mem_cons]
      · simp [List.mem_cons, Ne.symm hik]

theorem getD_range8_map {α : Type} (f : ℕ → α) (d : α) (i : ℕ) (h : i < 8) :
    ((List.range 8).map f).getD i d = f i := by
  interval_cases i <;> rfl

/-- C4: `build(voxels, min, max, depth)` returns absent on the empty
subset; otherwise, at `depth ≥ 16` or cube edge `≤ 1` it returns a leaf
carrying the first voxel's color (mask 0, no children); otherwise it
returns an internal node whose existence bit `i` is set exactly when the
octant-`i` sub-list is non-empty. -/
theorem buildOctree_case_analysis :
    ∀ (points : List Voxel) (mn mx : Vec3) (depth : ℤ),
      (points = [] → buildOctree points mn mx depth = none) ∧
      (points ≠ [] → (depth ≥ MAX_DEPTH ∨ mx.x - mn.x ≤ 1) →
        buildOctree points mn mx depth =
          some (.mk 0 (List.replicate 8 none) (points.headD defaultVoxel).color true)) ∧
      (points ≠ [] → depth < MAX_DEPTH → 1 < mx.x - mn.x →
        ∃ node, buildOctree points mn mx depth = some node ∧
          node.leafOf = false ∧
          ∀ i, i < 8 → ((node.maskOf).testBit i = true ↔
            octantFilter points ((mn.add mx).smul (1 / 2)) i ≠ [])) := by
  intro points mn mx depth
  refine ⟨?_, ?_, ?_⟩
  · intro h
    subst h
    exact buildOctree_empty mn mx depth
  · intro hne hcond
    rw [buildOctree, if_neg hne]
    dsimp only
    rw [if_pos hcond]
  · intro hne hd hs
    rw [buildOctree, if_neg hne]
    dsimp only
    rw [if_neg (by push_neg; exact ⟨hd, hs⟩)]
    refine ⟨_, rfl, rfl, ?_⟩
    intro i hi
    rw [OctreeNode.maskOf]
    rw [testBit_orFold]
    simp only [Nat.zero_testBit, Bool.false_or, Bool.and_eq_true, decide_eq_true_eq,
      List.mem_range]
    rw [getD_range8_map _ _ i hi]
    rw [Option.isSome_iff_ne_none, Ne, buildOctree_eq_none_iff]
    constructor
    · intro h
      exact h.1
    · intro h
      exact ⟨h, hi⟩

/-- Witness for `buildOctree_case_analysis`: a single voxel in a unit cube
yields a leaf with that voxel's color. -/
theorem buildOctree_case_analysis_witness :
    buildOctree [⟨0, 0, 0, ⟨1, 0, 0, 1⟩⟩] ⟨0, 0, 0⟩ ⟨1, 1, 1⟩ 0 =
      some (.mk 0 (List.replicate 8 none) (⟨1, 0, 0, 1⟩ : Vec4) true) := by
  have h := (buildOctree_case_analysis [⟨0, 0, 0, ⟨1, 0, 0, 1⟩⟩] ⟨0, 0, 0⟩ ⟨1, 1, 1⟩ 0).2.1
    (by simp) (Or.inr (by norm_num))
  exact h

/-- The componentwise raw minimum of the voxel positions (the spec's "raw
minimum position"): the positions' own minimum, seeded from the first
voxel rather than from the code's `1e9` sentinel. -/
def rawMinPos (points : List Voxel) : Vec3 :=
  points.foldl (fun a v => a.cmin v.posVec) (points.headD defaultVoxel).posVec

/-- The componentwise raw maximum of the voxel positions. -/
def rawMaxPos (points : List Voxel) : Vec3 :=
  points.foldl (fun a v => a.cmax v.posVec) (points.headD defaultVoxel).posVec

theorem foldl_min_le_init (g : Voxel → ℚ) :
    ∀ (l : List Voxel) (a : ℚ), l.foldl (fun acc v => min acc (g v)) a ≤ a := by
  intro l
  induction l with
  | nil => intro a; simp
  | cons p rest ih =>
    intro a
    calc (p :: rest).foldl (fun acc v => min acc (g v)) a
        = rest.foldl (fun acc v => min acc (g v)) (min a (g p)) := rfl
      _ ≤ min a (g p) := ih _
      _ ≤ a := min_le_left _ _

theorem foldl_min_le_mem (g : Voxel → ℚ) :
    ∀ (l : List Voxel) (a : ℚ) (v : Voxel), v ∈ l →
      l.foldl (fun acc v => min acc (g v)) a ≤ g v := by
  intro l
  induction l with
  | nil => intro a v hv; simp at hv
  | cons p rest ih =>
    intro a v hv
    rcases List.mem_cons.mp hv with h | h
    · subst h
      calc (v :: rest).foldl (fun acc w => min acc (g w)) a
          = rest.foldl (fun acc w => min acc (g w)) (min a (g v)) := rfl
        _ ≤ min a (g v) := foldl_min_le_init g rest _
        _ ≤ g v := min_le_right _ _
    · exact ih _ v h

theorem foldl_min_comm (g : Voxel → ℚ) :
    ∀ (l : List Voxel) (a b : ℚ),
      l.foldl (fun acc v => min acc (g v)) (min a b) =
        min a (l.foldl (fun acc v => min acc (g v)) b) := by
  intro l
  induction l with
  | nil => intro a b; rfl
  | cons p rest ih =>
    intro a b
    calc (p :: rest).foldl (fun acc v => min acc (g v)) (min a b)
        = rest.foldl (fun acc v => min acc (g v)) (min (min a b) (g p)) := rfl
      _ = rest.foldl (fun acc v => min acc (g v)) (min a (min b (g p))) := by rw [min_assoc]
      _ = min a (rest.foldl (fun acc v => min acc (g v)) (min b (g p))) := ih _ _
      _ = min a ((p :: rest).foldl (fun acc v => min acc (g v)) b) := rfl

theorem foldl_max_init_le (g : Voxel → ℚ) :
    ∀ (l : List Voxel) (a : ℚ), a ≤ l.foldl (fun acc v => max acc (g v)) a := by
  intro l
  induction l with
  | nil => intro a; simp
  | cons p rest ih =>
    intro a
    calc a ≤ max a (g p) := le_max_left _ _
      _ ≤ rest.foldl (fun acc v => max acc (g v)) (max a (g p)) := ih _
      _ = (p :: rest).foldl (fun acc v => max acc (g v)) a := rfl

theorem foldl_max_mem_le (g : Voxel → ℚ) :
    ∀ (l : List Voxel) (a : ℚ) (v : Voxel), v ∈ l →
      g v ≤ l.foldl (fun acc v => max acc (g v)) a := by
  intro l
  induction l with
  | nil => intro a v hv; simp at hv
  | cons p rest ih =>
    intro a v hv
    rcases List.mem_cons.mp hv with h | h
    · subst h
      calc g v ≤ max a (g v) := le_max_right _ _
        _ ≤ rest.foldl (fun acc w => max acc (g w)) (max a (g v)) := foldl_max_init_le g rest _
        _ = (v :: rest).foldl (fun acc w => max acc (g w)) a := rfl
    · exact ih _ v h

theorem foldl_max_comm (g : Voxel → ℚ) :
    ∀ (l : List Voxel) (a b : ℚ),
      l.foldl (fun acc v => max acc (g v)) (max a b) =
        max a (l.foldl (fun acc v => max acc (g v)) b) := by
  intro l
  induction l with
  | nil => intro a b; rfl
  | cons p rest ih =>
    intro a b
    calc (p :: rest).foldl (fun acc v => max acc (g v)) (max a b)
        = rest.foldl (fun acc v => max acc (g v)) (max (max a b) (g p)) := rfl
      _ = rest.foldl (fun acc v => max acc (g v)) (max a (max b (g p))) := by rw [max_assoc]
      _ = max a (rest.foldl (fun acc v => max acc (g v)) (max b (g p))) := ih _ _
      _ = max a ((p :: rest).foldl (fun acc v => max acc (g v)) b) := rfl

theorem foldl_min_intValued (g : Voxel → ℚ) (hg : ∀ v, ∃ k : ℤ, g v = (k : ℚ)) :
    ∀ (l : List Voxel) (k : ℤ), ∃ k2 : ℤ,
      l.foldl (fun acc v => min acc (g v)) (k : ℚ) = (k2 : ℚ) := by
  intro l
  induction l with
  | nil => intro k; exact ⟨k, rfl⟩
  | cons p rest ih =>
    intro k
    obtain ⟨kp, hkp⟩ := hg p
    have h1 : min (k : ℚ) (g p) = ((min k kp : ℤ) : ℚ) := by
      rw [hkp]
      push_cast
      rfl
    obtain ⟨k2, hk2⟩ := ih (min k kp)
    refine ⟨k2, ?_⟩
    calc (p :: rest).foldl (fun acc v => min acc (g v)) (k : ℚ)
        = rest.foldl (fun acc v => min acc (g v)) (min (k : ℚ) (g p)) := rfl
      _ = rest.foldl (fun acc v => min acc (g v)) ((min k kp : ℤ) : ℚ) := by rw [h1]
      _ = (k2 : ℚ) := hk2

theorem foldl_cmin_proj (sel : Vec3 → ℚ)
    (hsel : ∀ a b : Vec3, sel (a.cmin b) = min (sel a) (sel b)) :
    ∀ (l : List Voxel) (init : Vec3),
      sel (l.foldl (fun a v => a.cmin v.posVec) init) =
        l.foldl (fun a v => min a (sel v.posVec)) (sel init) := by
  intro l
  induction l with
  | nil => intro init; rfl
  | cons p rest ih =>
    intro init
    calc sel ((p :: rest).foldl (fun a v => a.cmin v.posVec) init)
        = sel (rest.foldl (fun a v => a.cmin v.posVec) (init.cmin p.posVec)) := rfl
      _ = rest.foldl (fun a v => min a (sel v.posVec)) (sel (init.cmin p.posVec)) := ih _
      _ = rest.foldl (fun a v => min a (sel v.posVec)) (min (sel init) (sel p.posVec)) := by
          rw [hsel]

theorem foldl_cmax_proj (sel : Vec3 → ℚ)
    (hsel : ∀ a b : Vec3, sel (a.cmax b) = max (sel a) (sel b)) :
    ∀ (l : List Voxel) (init : Vec3),
      sel (l.foldl (fun a v => a.cmax v.posVec) init) =
        l.foldl (fun a v => max a (sel v.posVec)) (sel init) := by
  intro l
  induction l with
  | nil => intro init; rfl
  | cons p rest ih =>
    intro init
    calc sel ((p :: rest).foldl (fun a v => a.cmax v.posVec) init)
        = sel (rest.foldl (fun a v => a.cmax v.posVec) (init.cmax p.posVec)) := rfl
      _ = rest.foldl (fun a v => max a (sel v.posVec)) (sel (init.cmax p.posVec)) := ih _
      _ = rest.foldl (fun a v => max a (sel v.posVec)) (max (sel init) (sel p.posVec)) := by
          rw [hsel]

theorem ceil_halves (extent pot : ℚ) (hp : 0 < pot) (h : pot < extent) :
    (⌈extent / (pot * 2)⌉).toNat < (⌈extent / pot⌉).toNat := by
  have hq : 1 < extent / pot := (one_lt_div hp).mpr h
  have hm : 1 < ⌈extent / pot⌉ := Int.lt_ceil.mpr (by exact_mod_cast hq)
  have hle : extent / pot ≤ (⌈extent / pot⌉ : ℚ) := Int.le_ceil _
  have hm2 : (2 : ℚ) ≤ (⌈extent / pot⌉ : ℚ) := by exact_mod_cast hm
  have key : ⌈extent / (pot * 2)⌉ ≤ ⌈extent / pot⌉ - 1 := by
    apply Int.ceil_le.mpr
    rw [div_mul_eq_div_div]
    push_cast
    linarith
  omega

/-- The `while (pot < extent) pot *= 2` loop computes the least power of
two multiple of its seed that reaches `extent`. -/
theorem potLoop_spec :
    ∀ (N : ℕ) (extent pot : ℚ) (hp : 0 < pot), (⌈extent / pot⌉).toNat ≤ N →
      ∃ n : ℕ, potLoop extent pot hp = pot * 2 ^ n ∧ extent ≤ pot * 2 ^ n ∧
        ∀ m : ℕ, m < n → pot * 2 ^ m < extent := by
  intro N
  induction N with
  | zero =>
    intro extent pot hp hN
    by_cases h : pot < extent
    · have hq : 1 < extent / pot := (one_lt_div hp).mpr h
      have hm : 1 < ⌈extent / pot⌉ := Int.lt_ceil.mpr (by exact_mod_cast hq)
      omega
    · refine ⟨0, ?_, ?_, ?_⟩
      · rw [potLoop, if_neg h]; ring
      · simpa using not_lt.mp h
      · intro m hm; omega
  | succ N ih =>
    intro extent pot hp hN
    by_cases h : pot < extent
    · have hdec := ceil_halves extent pot hp h
      obtain ⟨n, heq, hge, hmin⟩ := ih extent (pot * 2) (by positivity) (by omega)
      refine ⟨n + 1, ?_, ?_, ?_⟩
      · rw [potLoop, if_pos h, heq]; ring
      · calc extent ≤ pot * 2 * 2 ^ n := hge
          _ = pot * 2 ^ (n + 1) := by ring
      · intro m hm
        cases m with
        | zero => simpa using h
        | succ k =>
          calc pot * 2 ^ (k + 1) = pot * 2 * 2 ^ k := by ring
            _ < extent := hmin k (by omega)
    · refine ⟨0, ?_, ?_, ?_⟩
      · rw [potLoop, if_neg h]; ring
      · simpa using not_lt.mp h
      · intro m hm; omega

theorem Vec3.eq_of (a b : Vec3) (hx : a.x = b.x) (hy : a.y = b.y) (hz : a.z = b.z) :
    a = b := by
  cases a
  cases b
  simp_all

theorem scalarMin_eq_raw (g : Voxel → ℚ) (p : Voxel) (rest : List Voxel)
    (hb : ∀ v ∈ p :: rest, g v ≤ 10 ^ 9) :
    (p :: rest).foldl (fun a v => min a (g v)) (10 ^ 9) =
      (p :: rest).foldl (fun a v => min a (g v)) (g p) := by
  have h1 : (p :: rest).foldl (fun a v => min a (g v)) ((10 : ℚ) ^ 9)
      = min ((10 : ℚ) ^ 9) (rest.foldl (fun a v => min a (g v)) (g p)) := by
    rw [List.foldl_cons]
    rw [foldl_min_comm]
  have h2 : (p :: rest).foldl (fun a v => min a (g v)) (g p)
      = rest.foldl (fun a v => min a (g v)) (g p) := by
    rw [List.foldl_cons, min_self]
  rw [h1, h2]
  apply min_eq_right
  calc rest.foldl (fun a v => min a (g v)) (g p) ≤ g p := foldl_min_le_init g rest (g p)
    _ ≤ 10 ^ 9 := hb p (List.mem_cons_self p rest)

theorem scalarMax_eq_raw (g : Voxel → ℚ) (p : Voxel) (rest : List Voxel)
    (hb : ∀ v ∈ p :: rest, -(10 ^ 9) ≤ g v) :
    (p :: rest).foldl (fun a v => max a (g v)) (-(10 ^ 9)) =
      (p :: rest).foldl (fun a v => max a (g v)) (g p) := by
  have h1 : (p :: rest).foldl (fun a v => max a (g v)) (-((10 : ℚ) ^ 9))
      = max (-((10 : ℚ) ^ 9)) (rest.foldl (fun a v => max a (g v)) (g p)) := by
    rw [List.foldl_cons]
    rw [foldl_max_comm]
  have h2 : (p :: rest).foldl (fun a v => max a (g v)) (g p)
      = rest.foldl (fun a v => max a (g v)) (g p) := by
    rw [List.foldl_cons, max_self]
  rw [h1, h2]
  apply max_eq_right
  calc (-((10 : ℚ) ^ 9)) ≤ g p := hb p (List.mem_cons_self p rest)
    _ ≤ rest.foldl (fun a v => max a (g v)) (g p) := foldl_max_init_le g rest (g p)

theorem computeBMin_eq_raw (points : List Voxel) (hne : points ≠ [])
    (hb : ∀ v ∈ points, |(v.px : ℚ)| ≤ 10 ^ 9 ∧ |(v.py : ℚ)| ≤ 10 ^ 9 ∧ |(v.pz : ℚ)| ≤ 10 ^ 9) :
    computeBMin points = rawMinPos points := by
  cases points with
  | nil => exact absurd rfl hne
  | cons p rest =>
    apply Vec3.eq_of
    · rw [computeBMin, rawMinPos, foldl_cmin_proj Vec3.x (fun a b => rfl),
        foldl_cmin_proj Vec3.x (fun a b => rfl)]
      exact scalarMin_eq_raw (fun v => v.posVec.x) p rest
        (fun v hv => (abs_le.mp ((hb v hv).1)).2)
    · rw [computeBMin, rawMinPos, foldl_cmin_proj Vec3.y (fun a b => rfl),
        foldl_cmin_proj Vec3.y (fun a b => rfl)]
      exact scalarMin_eq_raw (fun v => v.posVec.y) p rest
        (fun v hv => (abs_le.mp ((hb v hv).2.1)).2)
    · rw [computeBMin, rawMinPos, foldl_cmin_proj Vec3.z (fun a b => rfl),
        foldl_cmin_proj Vec3.z (fun a b => rfl)]
      exact scalarMin_eq_raw (fun v => v.posVec.z) p rest
        (fun v hv => (abs_le.mp ((hb v hv).2.2)).2)

theorem computeBMax_eq_raw (points : List Voxel) (hne : points ≠ [])
    (hb : ∀ v ∈ points, |(v.px : ℚ)| ≤ 10 ^ 9 ∧ |(v.py : ℚ)| ≤ 10 ^ 9 ∧ |(v.pz : ℚ)| ≤ 10 ^ 9) :
    computeBMax points = rawMaxPos points := by
  cases points with
  | nil => exact absurd rfl hne
  | cons p rest =>
    apply Vec3.eq_of
    · rw [computeBMax, rawMaxPos, foldl_cmax_proj Vec3.x (fun a b => rfl),
        foldl_cmax_proj Vec3.x (fun a b => rfl)]
      exact scalarMax_eq_raw (fun v => v.posVec.x) p rest
        (fun v hv => (abs_le.mp ((hb v hv).1)).1)
    · rw [computeBMax, rawMaxPos, foldl_cmax_proj Vec3.y (fun a b => rfl),
        foldl_cmax_proj Vec3.y (fun a b => rfl)]
      exact scalarMax_eq_raw (fun v => v.posVec.y) p rest
        (fun v hv => (abs_le.mp ((hb v hv).2.1)).1)
    · rw [computeBMax, rawMaxPos, foldl_cmax_proj Vec3.z (fun a b => rfl),
        foldl_cmax_proj Vec3.z (fun a b => rfl)]
      exact scalarMax_eq_raw (fun v => v.posVec.z) p rest
        (fun v hv => (abs_le.mp ((hb v hv).2.2)).1)

theorem rawMinPos_intValued (points : List Voxel) :
    (∃ k : ℤ, (rawMinPos points).x = (k : ℚ)) ∧
    (∃ k : ℤ, (rawMinPos points).y = (k : ℚ)) ∧
    (∃ k : ℤ, (rawMinPos points).z = (k : ℚ)) := by
  refine ⟨?_, ?_, ?_⟩
  · rw [rawMinPos, foldl_cmin_proj Vec3.x (fun a b => rfl)]
    exact foldl_min_intValued (fun v => v.posVec.x) (fun v => ⟨v.px, rfl⟩) points _
  · rw [rawMinPos, foldl_cmin_proj Vec3.y (fun a b => rfl)]
    exact foldl_min_intValued (fun v => v.posVec.y) (fun v => ⟨v.py, rfl⟩) points _
  · rw [rawMinPos, foldl_cmin_proj Vec3.z (fun a b => rfl)]
    exact foldl_min_intValued (fun v => v.posVec.z) (fun v => ⟨v.pz, rfl⟩) points _

/-- C5: for a non-empty voxel list whose coordinates are within
`±(2^23 − 1)` (= 8388607), the bounding cube has: edge length equal to the
smallest power of two at least the largest per-axis extent
(componentwise max − min + 1), minimum equal to the componentwise floor
of the raw position minimum, and `min + edge ≥ position + 1` on every
axis for every voxel.  On this range the exact rational evaluation below
coincides with the `float` evaluation the code performs: the `int → float`
conversions of the positions (magnitude `≤ 2^23 − 1 < 2^24`), the
`±1e9 = ±2^9·1953125` accumulator seeds, the per-axis differences
(`≤ 2^24 − 2`) and extents (`≤ 2^24 − 1`), the power-of-two edge
(`≤ 2^24`) and the sum `min + edge` (`≤ 2^24 − 1`) are all integers (or
`1e9`) exactly representable in binary32, and `min`/`max`/`floor` are
exact selections; beyond it the claim fails (see the counterexample). -/
theorem bounding_cube_spec :
    ∀ points : List Voxel, points ≠ [] →
      (∀ v ∈ points,
        |(v.px : ℚ)| ≤ 2 ^ 23 - 1 ∧ |(v.py : ℚ)| ≤ 2 ^ 23 - 1 ∧ |(v.pz : ℚ)| ≤ 2 ^ 23 - 1) →
      (∃ n : ℕ, edgeOf points = 2 ^ n ∧ extentOf points ≤ 2 ^ n ∧
        ∀ m : ℕ, m < n → (2 : ℚ) ^ m < extentOf points) ∧
      extentOf points =
        max (max ((rawMaxPos points).x - (rawMinPos points).x + 1)
            ((rawMaxPos points).y - (rawMinPos points).y + 1))
          ((rawMaxPos points).z - (rawMinPos points).z + 1) ∧
      boundsMinOf points = (rawMinPos points).cfloor ∧
      ∀ v ∈ points,
        (v.px : ℚ) + 1 ≤ (boundsMinOf points).x + edgeOf points ∧
        (v.py : ℚ) + 1 ≤ (boundsMinOf points).y + edgeOf points ∧
        (v.pz : ℚ) + 1 ≤ (boundsMinOf points).z + edgeOf points := by
  intro points hne hb23
  have hb : ∀ v ∈ points,
      |(v.px : ℚ)| ≤ 10 ^ 9 ∧ |(v.py : ℚ)| ≤ 10 ^ 9 ∧ |(v.pz : ℚ)| ≤ 10 ^ 9 := by
    intro v hv
    obtain ⟨h1, h2, h3⟩ := hb23 v hv
    exact ⟨h1.trans (by norm_num), h2.trans (by norm_num), h3.trans (by norm_num)⟩
  have hmin := computeBMin_eq_raw points hne hb
  have hmax := computeBMax_eq_raw points hne hb
  obtain ⟨n, heq, hge, hlt⟩ :=
    potLoop_spec (⌈extentOf points / 1⌉).toNat (extentOf points) 1 one_pos le_rfl
  have hedge : edgeOf points = 2 ^ n := by
    rw [edgeOf, heq]
    ring
  have hext_eq : extentOf points =
      max (max ((rawMaxPos points).x - (rawMinPos points).x + 1)
          ((rawMaxPos points).y - (rawMinPos points).y + 1))
        ((rawMaxPos points).z - (rawMinPos points).z + 1) := by
    rw [extentOf]
    rw [hmin, hmax]
  have hextle : extentOf points ≤ edgeOf points := by
    rw [hedge]
    simpa using hge
  have hfloor : boundsMinOf points = (rawMinPos points).cfloor := by
    rw [boundsMinOf, hmin]
  refine ⟨⟨n, hedge, by simpa using hge, fun m hm => by simpa using hlt m hm⟩,
    hext_eq, hfloor, ?_⟩
  intro v hv
  have hminx : (boundsMinOf points).x = (rawMinPos points).x := by
    obtain ⟨k, hk⟩ := (rawMinPos_intValued points).1
    rw [hfloor]
    show (⌊(rawMinPos points).x⌋ : ℚ) = (rawMinPos points).x
    rw [hk, Int.floor_intCast]
  have hminy : (boundsMinOf points).y = (rawMinPos points).y := by
    obtain ⟨k, hk⟩ := (rawMinPos_intValued points).2.1
    rw [hfloor]
    show (⌊(rawMinPos points).y⌋ : ℚ) = (rawMinPos points).y
    rw [hk, Int.floor_intCast]
  have hminz : (boundsMinOf points).z = (rawMinPos points).z := by
    obtain ⟨k, hk⟩ := (rawMinPos_intValued points).2.2
    rw [hfloor]
    show (⌊(rawMinPos points).z⌋ : ℚ) = (rawMinPos points).z
    rw [hk, Int.floor_intCast]
  have hxle : (v.px : ℚ) ≤ (computeBMax points).x := by
    rw [computeBMax, foldl_cmax_proj Vec3.x (fun a b => rfl)]
    exact foldl_max_mem_le (fun w => w.posVec.x) points _ v hv
  have hyle : (v.py : ℚ) ≤ (computeBMax points).y := by
    rw [computeBMax, foldl_cmax_proj Vec3.y (fun a b => rfl)]
    exact foldl_max_mem_le (fun w => w.posVec.y) points _ v hv
  have hzle : (v.pz : ℚ) ≤ (computeBMax points).z := by
    rw [computeBMax, foldl_cmax_proj Vec3.z (fun a b => rfl)]
    exact foldl_max_mem_le (fun w => w.posVec.z) points _ v hv
  have hextx : (computeBMax points).x - (computeBMin points).x + 1 ≤ extentOf points := by
    rw [extentOf]
    exact le_max_of_le_left (le_max_left _ _)
  have hexty : (computeBMax points).y - (computeBMin points).y + 1 ≤ extentOf points := by
    rw [extentOf]
    exact le_max_of_le_left (le_max_right _ _)
  have hextz : (computeBMax points).z - (computeBMin points).z + 1 ≤ extentOf points := by
    rw [extentOf]
    exact le_max_right _ _
  have hcminx : (computeBMin points).x = (rawMinPos points).x := by rw [hmin]
  have hcminy : (computeBMin points).y = (rawMinPos points).y := by rw [hmin]
  have hcminz : (computeBMin points).z = (rawMinPos points).z := by rw [hmin]
  refine ⟨?_, ?_, ?_⟩
  · rw [hminx, ← hcminx]
    linarith
  · rw [hminy, ← hcminy]
    linarith
  · rw [hminz, ← hcminz]
    linarith

/-- Witness for `bounding_cube_spec` on a single voxel at the origin. -/
theorem bounding_cube_spec_witness :
    boundsMinOf [⟨0, 0, 0, Vec4.zero⟩] = (rawMinPos [⟨0, 0, 0, Vec4.zero⟩]).cfloor ∧
    ((⟨0, 0, 0, Vec4.zero⟩ : Voxel).px : ℚ) + 1 ≤
      (boundsMinOf [⟨0, 0, 0, Vec4.zero⟩]).x + edgeOf [⟨0, 0, 0, Vec4.zero⟩] := by
  have h := bounding_cube_spec [⟨0, 0, 0, Vec4.zero⟩] (by simp)
    (by
      intro v hv
      simp only [List.mem_singleton] at hv
      subst hv
      norm_num)
  exact ⟨h.2.2.1, (h.2.2.2 _ (by simp)).1⟩

theorem headerShift (L : ℕ) : ((L % 2 ^ 32) <<< 8) % 2 ^ 32 = L % 2 ^ 24 * 2 ^ 8 := by
  rw [Nat.shiftLeft_eq]
  have h32 : (2 : ℕ) ^ 32 = 2 ^ 24 * 2 ^ 8 := by norm_num
  rw [h32, Nat.mul_mod_mul_right]
  rw [Nat.mod_mod_of_dvd]
  exact ⟨2 ^ 8, by norm_num⟩

theorem headerOrAdd (A cmask : ℕ) (hc : cmask < 256) :
    A * 2 ^ 8 ||| cmask = A * 2 ^ 8 + cmask := by
  have hc8 : cmask < 2 ^ 8 := lt_of_lt_of_le hc (by norm_num)
  have h := Nat.mul_add_lt_is_or hc8 A
  calc A * 2 ^ 8 ||| cmask = 2 ^ 8 * A ||| cmask := by rw [Nat.mul_comm]
    _ = 2 ^ 8 * A + cmask := h.symm
    _ = A * 2 ^ 8 + cmask := by rw [Nat.mul_comm]

/-- Decoding the low byte of a stored header recovers the existence mask. -/
theorem headerLow (L cmask : ℕ) (hc : cmask < 256) :
    ((((L % 2 ^ 32) <<< 8) % 2 ^ 32) ||| cmask) &&& 255 = cmask := by
  rw [headerShift, headerOrAdd _ _ hc]
  have h255 : (255 : ℕ) = 2 ^ 8 - 1 := by norm_num
  rw [h255, Nat.and_pow_two_sub_one_eq_mod, Nat.add_comm, Nat.add_mul_mod_self_right]
  exact Nat.mod_eq_of_lt hc

/-- Decoding the high bits of a stored header recovers `firstChildIdx`
whenever it fits in 24 bits. -/
theorem headerHigh (L cmask : ℕ) (hc : cmask < 256) (hL : L < 2 ^ 24) :
    ((((L % 2 ^ 32) <<< 8) % 2 ^ 32) ||| cmask) >>> 8 = L := by
  have hc8 : cmask < 2 ^ 8 := lt_of_lt_of_le hc (by norm_num)
  rw [headerShift, headerOrAdd _ _ hc, Nat.shiftRight_eq_div_pow, Nat.add_comm,
    Nat.add_mul_div_right _ _ (show 0 < 2 ^ 8 by norm_num), Nat.div_eq_of_lt hc8,
    Nat.mod_eq_of_lt hL]
  omega

theorem modifyAt_length : ∀ (l : List GPUNode) (i : ℕ) (f : GPUNode → GPUNode),
    (modifyAt l i f).length = l.length := by
  intro l
  induction l with
  | nil => intro i f; rfl
  | cons g rest ih =>
    intro i f
    cases i with
    | zero => rfl
    | succ j => simp [modifyAt, ih]

theorem modifyAt_getD_self : ∀ (l : List GPUNode) (i : ℕ) (f : GPUNode → GPUNode),
    i < l.length → (modifyAt l i f).getD i ⟨0, 0⟩ = f (l.getD i ⟨0, 0⟩) := by
  intro l
  induction l with
  | nil => intro i f h; simp at h
  | cons g rest ih =>
    intro i f h
    cases i with
    | zero => rfl
    | succ j =>
      have hj : j < rest.length := by simpa using Nat.lt_of_succ_lt_succ h
      simp only [modifyAt]
      calc (g :: modifyAt rest j f).getD (j + 1) ⟨0, 0⟩
          = (modifyAt rest j f).getD j ⟨0, 0⟩ := rfl
        _ = f (rest.getD j ⟨0, 0⟩) := ih j f hj
        _ = f ((g :: rest).getD (j + 1) ⟨0, 0⟩) := rfl

theorem modifyAt_getD_ne : ∀ (l : List GPUNode) (i j : ℕ) (f : GPUNode → GPUNode),
    j ≠ i → (modifyAt l i f).getD j ⟨0, 0⟩ = l.getD j ⟨0, 0⟩ := by
  intro l
  induction l with
  | nil => intro i j f h; rfl
  | cons g rest ih =>
    intro i j f h
    cases i with
    | zero =>
      cases j with
      | zero => exact absurd rfl h
      | succ k => rfl
    | succ i2 =>
      cases j with
      | zero => rfl
      | succ k =>
        have hk : k ≠ i2 := fun he => h (by rw [he])
        calc (g :: modifyAt rest i2 f).getD (k + 1) ⟨0, 0⟩
            = (modifyAt rest i2 f).getD k ⟨0, 0⟩ := rfl
          _ = rest.getD k ⟨0, 0⟩ := ih i2 k f hk
          _ = (g :: rest).getD (k + 1) ⟨0, 0⟩ := rfl

theorem entriesFrom_length : ∀ (l : List OctreeNode) (s : ℕ),
    (entriesFrom l s).length = l.length := by
  intro l
  induction l with
  | nil => intro s; rfl
  | cons c rest ih => intro s; simp [entriesFrom, ih]

theorem entriesFrom_snds : ∀ (l : List OctreeNode) (s : ℕ),
    (entriesFrom l s).map Prod.snd = List.range' s l.length := by
  intro l
  induction l with
  | nil => intro s; rfl
  | cons c rest ih =>
    intro s
    simp only [entriesFrom, List.map_cons, ih, List.length_cons, List.range'_succ]

theorem entriesFrom_mem : ∀ (l : List OctreeNode) (s : ℕ) (e : OctreeNode × ℕ),
    e ∈ entriesFrom l s → ∃ k, ∃ hk : k < l.length, e = (l.get ⟨k, hk⟩, s + k) := by
  intro l
  induction l with
  | nil => intro s e he; simp [entriesFrom] at he
  | cons c rest ih =>
    intro s e he
    rw [entriesFrom, List.mem_cons] at he
    rcases he with he | he
    · exact ⟨0, by simp, by simpa using he⟩
    · obtain ⟨k, hk, hke⟩ := ih (s + 1) e he
      refine ⟨k + 1, by simpa using Nat.succ_lt_succ hk, ?_⟩
      rw [hke]
      have : s + 1 + k = s + (k + 1) := by omega
      rw [this]
      rfl

theorem entriesFrom_get_mem : ∀ (l : List OctreeNode) (s k : ℕ) (hk : k < l.length),
    (l.get ⟨k, hk⟩, s + k) ∈ entriesFrom l s := by
  intro l
  induction l with
  | nil => intro s k hk; simp at hk
  | cons c rest ih =>
    intro s k hk
    cases k with
    | zero =>
      rw [entriesFrom]
      exact List.mem_cons_self _ _
    | succ j =>
      rw [entriesFrom]
      apply List.mem_cons_of_mem
      have hj : j < rest.length := by simpa using Nat.lt_of_succ_lt_succ hk
      have heq : s + (j + 1) = (s + 1) + j := by omega
      rw [heq]
      exact ih (s + 1) j hj

theorem queueMeasure_ge_length (q : List (OctreeNode × ℕ)) : q.length ≤ queueMeasure q := by
  induction q with
  | nil => simp [queueMeasure]
  | cons e rest ih =>
    rw [queueMeasure_cons]
    have := countNodes_pos e.1
    simp only [List.length_cons]
    omega

theorem countList_replicate8_none : countList (List.replicate 8 none) = 0 := by
  show countList [none, none, none, none, none, none, none, none] = 0
  simp [countList, countOpt]

/-- The shape invariant of every tree `buildOctree` produces: a leaf has
mask 0 and no children; an internal node keeps the default color
`vec4(0)`, has a nonzero 8-bit mask whose bit `o` records exactly whether
child `o` exists, 8 child slots, and well-formed children. -/
inductive BuilderInv : OctreeNode → Prop where
  | leaf : ∀ color : Vec4, BuilderInv (.mk 0 (List.replicate 8 none) color true)
  | internal : ∀ (cmask : ℕ) (cs : List (Option OctreeNode)),
      cmask < 256 →
      cmask ≠ 0 →
      cs.length = 8 →
      (∀ o, o < 8 → cmask.testBit o = (cs.getD o none).isSome) →
      (∀ c ∈ childrenList cs, BuilderInv c) →
      BuilderInv (.mk cmask cs Vec4.zero false)

theorem octantIndexBuild_lt8 (p c : Vec3) : octantIndexBuild p c < 8 := by
  rw [octantIndexBuild]
  split_ifs <;> decide

theorem orFold_lt_256 : ∀ (l : List ℕ) (g : ℕ → Bool) (m : ℕ),
    (∀ i ∈ l, i < 8) → m < 256 →
    l.foldl (fun acc i => if g i then acc ||| 1 <<< i else acc) m < 256 := by
  intro l
  induction l with
  | nil => intro g m _ hm; simpa using hm
  | cons i rest ih =>
    intro g m hl hm
    rw [List.foldl_cons]
    apply ih
    · intro j hj
      exact hl j (List.mem_cons_of_mem i hj)
    · split_ifs with hg
      · have h1 : (1 <<< i) < 256 := by
          rw [Nat.one_shiftLeft]
          have : i < 8 := hl i (List.mem_cons_self i rest)
          calc (2 : ℕ) ^ i < 2 ^ 8 := Nat.pow_lt_pow_right (by norm_num) this
            _ = 256 := by norm_num
        have := Nat.or_lt_two_pow (show m < 2 ^ 8 by simpa using hm)
          (show (1 <<< i) < 2 ^ 8 by simpa using h1)
        simpa using this
      · exact hm

theorem buildOctree_builderInv :
    ∀ (N : ℕ) (points : List Voxel) (mn mx : Vec3) (depth : ℤ) (node : OctreeNode),
      (MAX_DEPTH - depth).toNat ≤ N →
      buildOctree points mn mx depth = some node → BuilderInv node := by
  intro N
  induction N with
  | zero =>
    intro points mn mx depth node hN h
    rw [buildOctree] at h
    by_cases hne : points = []
    · rw [if_pos hne] at h
      exact absurd h (by simp)
    · rw [if_neg hne] at h
      dsimp only at h
      split_ifs at h with hcond
      · have hx := Option.some.inj h
        subst hx
        exact BuilderInv.leaf _
      · exfalso
        rw [not_or] at hcond
        have hlt : depth < MAX_DEPTH := lt_of_not_ge hcond.1
        simp only [MAX_DEPTH] at hlt hN
        omega
  | succ N ih =>
    intro points mn mx depth node hN h
    rw [buildOctree] at h
    by_cases hne : points = []
    · rw [if_pos hne] at h
      exact absurd h (by simp)
    · rw [if_neg hne] at h
      dsimp only at h
      split_ifs at h with hcond
      · have hx := Option.some.inj h
        subst hx
        exact BuilderInv.leaf _
      · rw [not_or] at hcond
        have hdepth : depth < MAX_DEPTH := lt_of_not_ge hcond.1
        have hx := Option.some.inj h
        subst hx
        have hmeas : (MAX_DEPTH - (depth + 1)).toNat ≤ N := by
          simp only [MAX_DEPTH] at hdepth hN ⊢
          omega
        set center : Vec3 := (mn.add mx).smul (1 / 2) with hcen
        set childFn : ℕ → Option OctreeNode := fun i =>
          buildOctree (octantFilter points center i) (subCubeMin mn center i)
            (subCubeMax mx center i) (depth + 1) with hcf
        set children : List (Option OctreeNode) := (List.range 8).map childFn with hch
        apply BuilderInv.internal
        · exact orFold_lt_256 (List.range 8) _ 0
            (fun i hi => List.mem_range.mp hi) (by norm_num)
        · obtain ⟨p, hp⟩ := List.exists_mem_of_ne_nil points hne
          have hi0 : octantIndexBuild p.posVec center < 8 := octantIndexBuild_lt8 _ _
          have hfil : p ∈ octantFilter points center (octantIndexBuild p.posVec center) := by
            rw [octantFilter]
            exact List.mem_filter.mpr ⟨hp, by simp⟩
          have hsub : octantFilter points center (octantIndexBuild p.posVec center) ≠ [] :=
            List.ne_nil_of_mem hfil
          have hg : (children.getD (octantIndexBuild p.posVec center) none).isSome = true := by
            rw [hch, getD_range8_map _ _ _ hi0, hcf]
            rw [Option.isSome_iff_ne_none, Ne, buildOctree_eq_none_iff]
            exact hsub
          intro h0
          have hbit := testBit_orFold (fun i => (children.getD i none).isSome)
            (octantIndexBuild p.posVec center) (List.range 8) 0
          rw [h0] at hbit
          simp only [Nat.zero_testBit, Bool.false_or, List.mem_range] at hbit
          rw [hg] at hbit
          simp [hi0] at hbit
        · rw [hch]
          simp
        · intro o ho
          rw [testBit_orFold]
          simp [Nat.zero_testBit, List.mem_range, ho]
        · intro c hc
          rw [childrenList, List.mem_filterMap] at hc
          obtain ⟨a, ha, hac⟩ := hc
          simp only [id] at hac
          subst hac
          rw [hch, List.mem_map] at ha
          obtain ⟨i, hi, hfi⟩ := ha
          rw [hcf] at hfi
          exact ih _ _ _ _ c hmeas hfi

/-- The color field write `octreeData[selfIdx].color = packColor(...)`. -/
def colorWrite (color : Vec4) : GPUNode → GPUNode :=
  fun g => { g with color := packColor color }

/-- The header field write `octreeData[selfIdx].childMask = ...`. -/
def maskWrite (v : ℕ) : GPUNode → GPUNode :=
  fun g => { g with childMask := v }

/-- Net effect of one leaf iteration of the flattener on `octreeData`. -/
def leafStepData (color : Vec4) (si : ℕ) (data : List GPUNode) : List GPUNode :=
  modifyAt (modifyAt data si (colorWrite color)) si (maskWrite 0)

/-- Net effect of one internal-node iteration of the flattener on
`octreeData`: write the color, append `m` fresh child slots, then write
the header `(firstChildIdx << 8) | mask` (in `uint32_t`). -/
def internalStepData (cmask m : ℕ) (color : Vec4) (si : ℕ) (data : List GPUNode) :
    List GPUNode :=
  modifyAt (modifyAt data si (colorWrite color) ++ List.replicate m ⟨0, 0⟩) si
    (maskWrite (((data.length % 2 ^ 32) <<< 8 % 2 ^ 32) ||| cmask))

theorem flattenLoop_cons_leaf (cmask : ℕ) (cs : List (Option OctreeNode)) (color : Vec4)
    (si : ℕ) (rest : List (OctreeNode × ℕ)) (data : List GPUNode) :
    flattenLoop ((⟨cmask, cs, color, true⟩, si) :: rest) data =
      flattenLoop rest (leafStepData color si data) := by
  rw [flattenLoop]
  dsimp only [OctreeNode.leafOf, OctreeNode.colorOf]
  rw [if_pos rfl]
  rfl

theorem flattenLoop_cons_internal (cmask : ℕ) (cs : List (Option OctreeNode)) (color : Vec4)
    (si : ℕ) (rest : List (OctreeNode × ℕ)) (data : List GPUNode) :
    flattenLoop ((⟨cmask, cs, color, false⟩, si) :: rest) data =
      flattenLoop (rest ++ entriesFrom (childrenList cs) data.length)
        (internalStepData cmask (childrenList cs).length color si data) := by
  rw [flattenLoop]
  dsimp only [OctreeNode.leafOf, OctreeNode.colorOf, OctreeNode.maskOf, OctreeNode.childrenOf]
  rw [if_neg Bool.false_ne_true]
  rw [pushLoop_eq]
  dsimp only
  rw [List.nil_append, modifyAt_length]
  rfl

theorem leafStepData_length (color : Vec4) (si : ℕ) (data : List GPUNode) :
    (leafStepData color si data).length = data.length := by
  rw [leafStepData, modifyAt_length, modifyAt_length]

theorem leafStepData_getD_self (color : Vec4) (si : ℕ) (data : List GPUNode)
    (h : si < data.length) :
    (leafStepData color si data).getD si ⟨0, 0⟩ = ⟨0, packColor color⟩ := by
  rw [leafStepData, modifyAt_getD_self _ _ _ (by rwa [modifyAt_length]),
    modifyAt_getD_self _ _ _ h]
  rfl

theorem leafStepData_getD_ne (color : Vec4) (si j : ℕ) (data : List GPUNode)
    (h : j ≠ si) :
    (leafStepData color si data).getD j ⟨0, 0⟩ = data.getD j ⟨0, 0⟩ := by
  rw [leafStepData, modifyAt_getD_ne _ _ _ _ h, modifyAt_getD_ne _ _ _ _ h]

theorem internalStepData_length (cmask m : ℕ) (color : Vec4) (si : ℕ)
    (data : List GPUNode) :
    (internalStepData cmask m color si data).length = data.length + m := by
  rw [internalStepData, modifyAt_length, List.length_append, List.length_replicate,
    modifyAt_length]

theorem internalStepData_getD_self (cmask m : ℕ) (color : Vec4) (si : ℕ)
    (data : List GPUNode) (h : si < data.length) :
    (internalStepData cmask m color si data).getD si ⟨0, 0⟩ =
      ⟨((data.length % 2 ^ 32) <<< 8 % 2 ^ 32) ||| cmask, packColor color⟩ := by
  rw [internalStepData, modifyAt_getD_self _ _ _
    (by rw [List.length_append, modifyAt_length]; omega)]
  rw [List.getD_append _ _ _ _ (by rwa [modifyAt_length]),
    modifyAt_getD_self _ _ _ h]
  rfl

theorem internalStepData_getD_ne (cmask m : ℕ) (color : Vec4) (si j : ℕ)
    (data : List GPUNode) (hne : j ≠ si) (hj : j < data.length) :
    (internalStepData cmask m color si data).getD j ⟨0, 0⟩ = data.getD j ⟨0, 0⟩ := by
  rw [internalStepData, modifyAt_getD_ne _ _ _ _ hne,
    List.getD_append _ _ _ _ (by rwa [modifyAt_length]),
    modifyAt_getD_ne _ _ _ _ hne]

theorem flattenLoop_len :
    ∀ (N : ℕ) (queue : List (OctreeNode × ℕ)) (data : List GPUNode),
      queueMeasure queue ≤ N →
      (∀ e ∈ queue, BuilderInv e.1) →
      (flattenLoop queue data).length + queue.length = data.length + queueMeasure queue := by
  intro N
  induction N with
  | zero =>
    intro queue data hN hInv
    cases queue with
    | nil => simp [flattenLoop, queueMeasure]
    | cons e rest =>
      exfalso
      have := countNodes_pos e.1
      rw [queueMeasure_cons] at hN
      omega
  | succ N ih =>
    intro queue data hN hInv
    cases queue with
    | nil => simp [flattenLoop, queueMeasure]
    | cons e rest =>
      obtain ⟨n, si⟩ := e
      have hInvHead : BuilderInv n := hInv (n, si) (List.mem_cons_self _ _)
      have hInv' : ∀ e ∈ rest, BuilderInv e.1 :=
        fun e he => hInv e (List.mem_cons_of_mem _ he)
      cases n with
      | mk cmask cs color lf =>
        rw [queueMeasure_cons] at hN ⊢
        dsimp only at hN ⊢
        cases lf with
        | true =>
          rw [flattenLoop_cons_leaf]
          have hcount : countNodes (.mk cmask cs color true) = 1 := by
            cases hInvHead
            rw [countNodes_eq]
            show 1 + countList (List.replicate 8 none) = 1
            rw [countList_replicate8_none]
          rw [hcount] at hN ⊢
          have hrec := ih rest (leafStepData color si data) (by omega) hInv'
          rw [leafStepData_length] at hrec
          simp only [List.length_cons]
          omega
        | false =>
          rw [flattenLoop_cons_internal]
          have hcount : countNodes (.mk cmask cs color false) = 1 + countList cs := by
            rw [countNodes_eq]
            rfl
          rw [hcount] at hN ⊢
          have hInv2 : ∀ e ∈ rest ++ entriesFrom (childrenList cs) data.length,
              BuilderInv e.1 := by
            intro e he
            rcases List.mem_append.mp he with he | he
            · exact hInv' e he
            · obtain ⟨k, hk, hke⟩ := entriesFrom_mem _ _ e he
              subst hke
              cases hInvHead with
              | internal _ _ h1 h2 h3 h4 h5 => exact h5 _ (List.get_mem _ _ _)
          have hmeas2 : queueMeasure (rest ++ entriesFrom (childrenList cs) data.length)
              ≤ N := by
            rw [queueMeasure_append, queueMeasure_entriesFrom, ← countList_eq_sum]
            omega
          have hrec := ih (rest ++ entriesFrom (childrenList cs) data.length)
            (internalStepData cmask (childrenList cs).length color si data) hmeas2 hInv2
          rw [internalStepData_length, List.length_append, entriesFrom_length,
            queueMeasure_append, queueMeasure_entriesFrom, ← countList_eq_sum] at hrec
          simp only [List.length_cons]
          omega

theorem flattenLoop_len_ge (N : ℕ) (queue : List (OctreeNode × ℕ)) (data : List GPUNode)
    (hN : queueMeasure queue ≤ N) (hInv : ∀ e ∈ queue, BuilderInv e.1) :
    data.length ≤ (flattenLoop queue data).length := by
  have h := flattenLoop_len N queue data hN hInv
  have := queueMeasure_ge_length queue
  omega

theorem flattenLoop_frame :
    ∀ (N : ℕ) (queue : List (OctreeNode × ℕ)) (data : List GPUNode) (j : ℕ),
      queueMeasure queue ≤ N →
      j ∉ queue.map Prod.snd →
      j < data.length →
      (flattenLoop queue data).getD j ⟨0, 0⟩ = data.getD j ⟨0, 0⟩ := by
  intro N
  induction N with
  | zero =>
    intro queue data j hN hj hjd
    cases queue with
    | nil => rw [flattenLoop]
    | cons e rest =>
      exfalso
      have := countNodes_pos e.1
      rw [queueMeasure_cons] at hN
      omega
  | succ N ih =>
    intro queue data j hN hj hjd
    cases queue with
    | nil => rw [flattenLoop]
    | cons e rest =>
      obtain ⟨n, si⟩ := e
      rw [queueMeasure_cons] at hN
      dsimp only at hN
      simp only [List.map_cons, List.mem_cons, not_or] at hj
      obtain ⟨hjsi, hjrest⟩ := hj
      have := countNodes_pos n
      cases n with
      | mk cmask cs color lf =>
        cases lf with
        | true =>
          rw [flattenLoop_cons_leaf]
          rw [ih rest _ j (by omega) hjrest (by rwa [leafStepData_length])]
          exact leafStepData_getD_ne color si j data hjsi
        | false =>
          rw [flattenLoop_cons_internal]
          have hcount : countNodes (.mk cmask cs color false) = 1 + countList cs := by
            rw [countNodes_eq]
            rfl
          rw [hcount] at hN
          have hmeas2 : queueMeasure (rest ++ entriesFrom (childrenList cs) data.length)
              ≤ N := by
            rw [queueMeasure_append, queueMeasure_entriesFrom, ← countList_eq_sum]
            omega
          have hnotmem : j ∉ (rest ++ entriesFrom (childrenList cs) data.length).map
              Prod.snd := by
            rw [List.map_append, List.mem_append, not_or]
            refine ⟨hjrest, ?_⟩
            rw [entriesFrom_snds]
            intro hmem
            have := (List.mem_range'_1.mp hmem).1
            omega
          rw [ih _ _ j hmeas2 hnotmem
            (by rw [internalStepData_length]; omega)]
          exact internalStepData_getD_ne cmask _ color si j data hjsi hjd

/-- Slot `i` of the flattened array holds node `n`'s record, and (for an
internal node) decoding the stored header locates each existing child:
the low byte is the existence mask, and slot `(header >> 8) + k` holds the
k-th existing child in ascending octant order, recursively. -/
inductive Represents : List GPUNode → OctreeNode → ℕ → Prop where
  | leaf : ∀ (data : List GPUNode) (cmask : ℕ) (cs : List (Option OctreeNode)) (color : Vec4)
      (i : ℕ),
      i < data.length →
      (data.getD i ⟨0, 0⟩).childMask = 0 →
      (data.getD i ⟨0, 0⟩).color = packColor color →
      Represents data (.mk cmask cs color true) i
  | internal : ∀ (data : List GPUNode) (cmask : ℕ) (cs : List (Option OctreeNode))
      (color : Vec4) (i : ℕ),
      i < data.length →
      (data.getD i ⟨0, 0⟩).childMask &&& 255 = cmask →
      (data.getD i ⟨0, 0⟩).color = packColor color →
      (∀ k, ∀ hk : k < (childrenList cs).length,
        Represents data ((childrenList cs).get ⟨k, hk⟩)
          (((data.getD i ⟨0, 0⟩).childMask >>> 8) + k)) →
      Represents data (.mk cmask cs color false) i

theorem countList_ge_numChildren (cs : List (Option OctreeNode)) :
    (childrenList cs).length ≤ countList cs := by
  have h1 := queueMeasure_ge_length (entriesFrom (childrenList cs) 0)
  rw [queueMeasure_entriesFrom, entriesFrom_length, ← countList_eq_sum] at h1
  exact h1

theorem builderInv_numChildren_pos (cmask : ℕ) (cs : List (Option OctreeNode))
    (hm256 : cmask < 256) (hmne : cmask ≠ 0) (hlen8 : cs.length = 8)
    (hbits : ∀ o, o < 8 → cmask.testBit o = (cs.getD o none).isSome) :
    1 ≤ (childrenList cs).length := by
  obtain ⟨o, ho⟩ := Nat.ne_zero_implies_bit_true hmne
  have ho8 : o < 8 := by
    have h1 : 2 ^ o ≤ cmask := Nat.testBit_implies_ge ho
    by_contra hcon
    push_neg at hcon
    have : (2 : ℕ) ^ 8 ≤ 2 ^ o := Nat.pow_le_pow_right (by norm_num) hcon
    omega
  have hsome : (cs.getD o none).isSome = true := by rw [← hbits o ho8, ho]
  have holen : o < cs.length := by omega
  rw [List.getD_eq_getElem _ _ holen] at hsome
  obtain ⟨c, hc⟩ := Option.isSome_iff_exists.mp hsome
  have hmem : c ∈ childrenList cs := by
    rw [childrenList, List.mem_filterMap]
    exact ⟨some c, by rw [← hc]; exact List.getElem_mem holen, rfl⟩
  exact List.length_pos.mpr (List.ne_nil_of_mem hmem)

theorem flattenLoop_rep :
    ∀ (N : ℕ) (queue : List (OctreeNode × ℕ)) (data : List GPUNode),
      queueMeasure queue ≤ N →
      (∀ e ∈ queue, BuilderInv e.1) →
      (∀ e ∈ queue, e.2 < data.length) →
      (queue.map Prod.snd).Nodup →
      data.length + queueMeasure queue ≤ 2 ^ 24 + queue.length →
      ∀ e ∈ queue, Represents (flattenLoop queue data) e.1 e.2 := by
  intro N
  induction N with
  | zero =>
    intro queue data hN hInv hIdx hNodup hBound e he
    cases queue with
    | nil => simp at he
    | cons e2 rest =>
      exfalso
      have := countNodes_pos e2.1
      rw [queueMeasure_cons] at hN
      omega
  | succ N ih =>
    intro queue data hN hInv hIdx hNodup hBound
    cases queue with
    | nil => intro e he; simp at he
    | cons e0 rest =>
      obtain ⟨n, si⟩ := e0
      have hInvHead : BuilderInv n := hInv (n, si) (List.mem_cons_self _ _)
      have hInv' : ∀ e ∈ rest, BuilderInv e.1 :=
        fun e he => hInv e (List.mem_cons_of_mem _ he)
      have hIdx' : ∀ e ∈ rest, e.2 < data.length :=
        fun e he => hIdx e (List.mem_cons_of_mem _ he)
      have hside : si < data.length := hIdx (n, si) (List.mem_cons_self _ _)
      rw [List.map_cons, List.nodup_cons] at hNodup
      obtain ⟨hsirest, hNodup'⟩ := hNodup
      rw [queueMeasure_cons] at hN hBound
      dsimp only at hN hBound hsirest
      cases n with
      | mk cmask cs color lf =>
        cases lf with
        | true =>
          have hcount : countNodes (.mk cmask cs color true) = 1 := by
            cases hInvHead
            rw [countNodes_eq]
            show 1 + countList (List.replicate 8 none) = 1
            rw [countList_replicate8_none]
          rw [hcount] at hN hBound
          rw [flattenLoop_cons_leaf]
          have hmeas' : queueMeasure rest ≤ N := by omega
          have hIdx2 : ∀ e ∈ rest, e.2 < (leafStepData color si data).length := by
            rw [leafStepData_length]
            exact hIdx'
          have hBound2 : (leafStepData color si data).length + queueMeasure rest ≤
              2 ^ 24 + rest.length := by
            rw [leafStepData_length]
            simp only [List.length_cons] at hBound
            omega
          have hrec := ih rest (leafStepData color si data) hmeas' hInv' hIdx2
            hNodup' hBound2
          intro e he
          rcases List.mem_cons.mp he with he | he
          · subst he
            dsimp only
            have hlen : si < (flattenLoop rest (leafStepData color si data)).length := by
              have := flattenLoop_len_ge (queueMeasure rest) rest
                (leafStepData color si data) le_rfl hInv'
              rw [leafStepData_length] at this
              omega
            have hval : (flattenLoop rest (leafStepData color si data)).getD si ⟨0, 0⟩ =
                ⟨0, packColor color⟩ := by
              rw [flattenLoop_frame (queueMeasure rest) rest _ si le_rfl hsirest
                (by rw [leafStepData_length]; exact hside)]
              exact leafStepData_getD_self color si data hside
            apply Represents.leaf
            · exact hlen
            · rw [hval]
            · rw [hval]
          · exact hrec e he
        | false =>
          have hcount : countNodes (.mk cmask cs color false) = 1 + countList cs := by
            rw [countNodes_eq]
            rfl
          rw [hcount] at hN hBound
          cases hInvHead with
          | internal _ _ hm256 hmne hlen8 hbits hkids =>
            have hm1 : 1 ≤ (childrenList cs).length :=
              builderInv_numChildren_pos cmask cs hm256 hmne hlen8 hbits
            have hclcount : (childrenList cs).length ≤ countList cs :=
              countList_ge_numChildren cs
            have hmRest := queueMeasure_ge_length rest
            simp only [List.length_cons] at hBound
            have hL24 : data.length < 2 ^ 24 := by omega
            rw [flattenLoop_cons_internal]
            have hmeas2 : queueMeasure (rest ++ entriesFrom (childrenList cs) data.length)
                ≤ N := by
              rw [queueMeasure_append, queueMeasure_entriesFrom, ← countList_eq_sum]
              omega
            have hInv2 : ∀ e ∈ rest ++ entriesFrom (childrenList cs) data.length,
                BuilderInv e.1 := by
              intro e he
              rcases List.mem_append.mp he with he | he
              · exact hInv' e he
              · obtain ⟨k, hk, hke⟩ := entriesFrom_mem _ _ e he
                subst hke
                exact hkids _ (List.get_mem _ _ _)
            have hIdx2 : ∀ e ∈ rest ++ entriesFrom (childrenList cs) data.length,
                e.2 < (internalStepData cmask (childrenList cs).length Vec4.zero si data).length := by
              rw [internalStepData_length]
              intro e he
              rcases List.mem_append.mp he with he | he
              · have := hIdx' e he
                omega
              · obtain ⟨k, hk, hke⟩ := entriesFrom_mem _ _ e he
                subst hke
                dsimp only
                omega
            have hNodup2 : ((rest ++ entriesFrom (childrenList cs) data.length).map
                Prod.snd).Nodup := by
              rw [List.map_append, entriesFrom_snds]
              apply List.Nodup.append hNodup' (List.nodup_range' _ _)
              intro a ha ha2
              obtain ⟨e, he, hea⟩ := List.mem_map.mp ha
              have h1 : a < data.length := by
                rw [← hea]
                exact hIdx' e he
              have h2 := (List.mem_range'_1.mp ha2).1
              omega
            have hBound2 : (internalStepData cmask (childrenList cs).length Vec4.zero si
                data).length + queueMeasure (rest ++ entriesFrom (childrenList cs)
                data.length) ≤ 2 ^ 24 +
                (rest ++ entriesFrom (childrenList cs) data.length).length := by
              rw [internalStepData_length, queueMeasure_append, queueMeasure_entriesFrom,
                ← countList_eq_sum, List.length_append, entriesFrom_length]
              omega
            have hrec := ih (rest ++ entriesFrom (childrenList cs) data.length)
              (internalStepData cmask (childrenList cs).length Vec4.zero si data)
              hmeas2 hInv2 hIdx2 hNodup2 hBound2
            have hsinot : si ∉ ((rest ++ entriesFrom (childrenList cs) data.length).map
                Prod.snd) := by
              rw [List.map_append, entriesFrom_snds, List.mem_append, not_or]
              refine ⟨hsirest, ?_⟩
              intro hmem
              have := (List.mem_range'_1.mp hmem).1
              omega
            have hlenge := flattenLoop_len_ge
              (queueMeasure (rest ++ entriesFrom (childrenList cs) data.length))
              (rest ++ entriesFrom (childrenList cs) data.length)
              (internalStepData cmask (childrenList cs).length Vec4.zero si data) le_rfl hInv2
            rw [internalStepData_length] at hlenge
            have hval : (flattenLoop (rest ++ entriesFrom (childrenList cs) data.length)
                (internalStepData cmask (childrenList cs).length Vec4.zero si data)).getD si
                ⟨0, 0⟩ = ⟨((data.length % 2 ^ 32) <<< 8 % 2 ^ 32) ||| cmask,
                  packColor Vec4.zero⟩ := by
              rw [flattenLoop_frame
                (queueMeasure (rest ++ entriesFrom (childrenList cs) data.length))
                _ _ si le_rfl hsinot
                (by rw [internalStepData_length]; omega)]
              exact internalStepData_getD_self cmask _ Vec4.zero si data hside
            intro e he
            rcases List.mem_cons.mp he with he | he
            · subst he
              dsimp only
              apply Represents.internal
              · omega
              · rw [hval]
                exact headerLow data.length cmask hm256
              · rw [hval]
              · intro k hk
                rw [hval]
                show Represents _ _ ((((data.length % 2 ^ 32) <<< 8 % 2 ^ 32) ||| cmask)
                  >>> 8 + k)
                rw [headerHigh data.length cmask hm256 hL24]
                exact hrec ((childrenList cs).get ⟨k, hk⟩, data.length + k)
                  (List.mem_append_right _ (entriesFrom_get_mem _ _ k hk))
            · exact hrec e (List.mem_append_left _ he)

theorem packColor_zero : packColor Vec4.zero = 0 := by
  show packColor ⟨0, 0, 0, 0⟩ = 0
  rw [packColor]
  norm_num [qclamp]

theorem replicate_getD_node (m k : ℕ) :
    (List.replicate m (⟨0, 0⟩ : GPUNode)).getD k ⟨0, 0⟩ = ⟨0, 0⟩ := by
  induction m generalizing k with
  | zero => cases k <;> rfl
  | succ m ih =>
    cases k with
    | zero => rfl
    | succ j => exact ih j

theorem internalStepData_getD_high (cmask m : ℕ) (color : Vec4) (si j : ℕ)
    (data : List GPUNode) (h1 : si < data.length) (h2 : data.length ≤ j) :
    (internalStepData cmask m color si data).getD j ⟨0, 0⟩ = ⟨0, 0⟩ := by
  rw [internalStepData, modifyAt_getD_ne _ _ _ _ (by omega),
    List.getD_append_right _ _ _ _ (by rw [modifyAt_length]; omega), modifyAt_length]
  exact replicate_getD_node _ _

theorem flattenLoop_colorZero :
    ∀ (N : ℕ) (queue : List (OctreeNode × ℕ)) (data : List GPUNode),
      queueMeasure queue ≤ N →
      (∀ e ∈ queue, BuilderInv e.1) →
      (∀ e ∈ queue, e.2 < data.length) →
      (∀ j, (data.getD j ⟨0, 0⟩).childMask &&& 255 ≠ 0 → (data.getD j ⟨0, 0⟩).color = 0) →
      ∀ j, ((flattenLoop queue data).getD j ⟨0, 0⟩).childMask &&& 255 ≠ 0 →
        ((flattenLoop queue data).getD j ⟨0, 0⟩).color = 0 := by
  intro N
  induction N with
  | zero =>
    intro queue data hN hInv hIdx hData j hj
    cases queue with
    | nil =>
      rw [flattenLoop] at hj ⊢
      exact hData j hj
    | cons e rest =>
      exfalso
      have := countNodes_pos e.1
      rw [queueMeasure_cons] at hN
      omega
  | succ N ih =>
    intro queue data hN hInv hIdx hData
    cases queue with
    | nil =>
      intro j hj
      rw [flattenLoop] at hj ⊢
      exact hData j hj
    | cons e0 rest =>
      obtain ⟨n, si⟩ := e0
      have hInvHead : BuilderInv n := hInv (n, si) (List.mem_cons_self _ _)
      have hInv' : ∀ e ∈ rest, BuilderInv e.1 :=
        fun e he => hInv e (List.mem_cons_of_mem _ he)
      have hIdx' : ∀ e ∈ rest, e.2 < data.length :=
        fun e he => hIdx e (List.mem_cons_of_mem _ he)
      have hside : si < data.length := hIdx (n, si) (List.mem_cons_self _ _)
      rw [queueMeasure_cons] at hN
      dsimp only at hN
      have hpos := countNodes_pos n
      cases n with
      | mk cmask cs color lf =>
        cases lf with
        | true =>
          rw [flattenLoop_cons_leaf]
          apply ih rest _ (by omega) hInv'
            (by rw [leafStepData_length]; exact hIdx')
          intro j hj
          by_cases hjs : j = si
          · subst hjs
            rw [leafStepData_getD_self color j data hside] at hj ⊢
            simp at hj
          · rw [leafStepData_getD_ne color si j data hjs] at hj ⊢
            exact hData j hj
        | false =>
          cases hInvHead with
          | internal _ _ hm256 hmne hlen8 hbits hkids =>
            rw [flattenLoop_cons_internal]
            apply ih (rest ++ entriesFrom (childrenList cs) data.length)
              (internalStepData cmask (childrenList cs).length Vec4.zero si data)
            · rw [queueMeasure_append, queueMeasure_entriesFrom, ← countList_eq_sum]
              rw [countNodes_eq] at hN
              have : countList (OctreeNode.mk cmask cs Vec4.zero false).childrenOf =
                  countList cs := rfl
              omega
            · intro e he
              rcases List.mem_append.mp he with he | he
              · exact hInv' e he
              · obtain ⟨k, hk, hke⟩ := entriesFrom_mem _ _ e he
                subst hke
                exact hkids _ (List.get_mem _ _ _)
            · rw [internalStepData_length]
              intro e he
              rcases List.mem_append.mp he with he | he
              · have := hIdx' e he
                omega
              · obtain ⟨k, hk, hke⟩ := entriesFrom_mem _ _ e he
                subst hke
                dsimp only
                omega
            · intro j hj
              by_cases hjs : j = si
              · subst hjs
                rw [internalStepData_getD_self cmask _ Vec4.zero j data hside] at hj ⊢
                show packColor Vec4.zero = 0
                exact packColor_zero
              · by_cases hjlen : j < data.length
                · rw [internalStepData_getD_ne cmask _ Vec4.zero si j data hjs hjlen]
                    at hj ⊢
                  exact hData j hj
                · rw [internalStepData_getD_high cmask _ Vec4.zero si j data hside
                    (by omega)] at hj
                  simp at hj

/-- A single voxel in a unit cube builds a single leaf (shared by several
witnesses below). -/
theorem buildOctree_singleton_leaf :
    buildOctree [⟨0, 0, 0, ⟨1, 0, 0, 1⟩⟩] ⟨0, 0, 0⟩ ⟨1, 1, 1⟩ 0 =
      some (.mk 0 (List.replicate 8 none) ⟨1, 0, 0, 1⟩ true) := by
  rw [buildOctree]
  rw [if_neg (by simp)]
  dsimp only
  rw [if_pos (Or.inr (by norm_num))]
  rfl

theorem countNodes_singleton_leaf :
    countNodes (.mk 0 (List.replicate 8 none) (⟨1, 0, 0, 1⟩ : Vec4) true) = 1 := by
  rw [countNodes_eq]
  show 1 + countList (List.replicate 8 none) = 1
  rw [countList_replicate8_none]

/-- C1 (amended): for every pointer octree the builder produces with at
most `2^24` nodes — the capacity of the 24 bits the `uint32` header
reserves for `firstChildIdx`; beyond it the pack truncates and the claim
fails, as the accompanying counterexample shows — the flattened array
satisfies the decoding invariant: the root occupies slot 0
(`Represents … 0`); every internal node's slot stores a header whose low
byte is its (nonzero — `BuilderInv`) existence mask, with bit `o` set
exactly when octant `o`'s child exists, and whose high bits locate the
existing children at contiguous slots `(header >> 8) + k` for the k-th
set bit in ascending octant order; every leaf's stored header word
is `0`. -/
theorem flattened_children_contiguous :
    ∀ (points : List Voxel) (mn mx : Vec3) (depth : ℤ) (root : OctreeNode),
      buildOctree points mn mx depth = some root →
      countNodes root ≤ 2 ^ 24 →
      BuilderInv root ∧ Represents (flattenTree root) root 0 := by
  intro points mn mx depth root hb hc
  have hinv := buildOctree_builderInv (MAX_DEPTH - depth).toNat points mn mx depth root
    le_rfl hb
  refine ⟨hinv, ?_⟩
  rw [flattenTree]
  refine flattenLoop_rep (queueMeasure [(root, 0)]) [(root, 0)] [⟨0, 0⟩] le_rfl
    ?_ ?_ ?_ ?_ (root, 0) (List.mem_singleton.mpr rfl)
  · intro e he
    rw [List.mem_singleton] at he
    subst he
    exact hinv
  · intro e he
    rw [List.mem_singleton] at he
    subst he
    simp
  · simp
  · rw [queueMeasure_cons]
    simp only [queueMeasure, List.map_nil, List.sum_nil, List.length_singleton,
      List.length_cons, List.length_nil]
    omega

/-- Witness for `flattened_children_contiguous` on a single-leaf build. -/
theorem flattened_children_contiguous_witness :
    BuilderInv (.mk 0 (List.replicate 8 none) (⟨1, 0, 0, 1⟩ : Vec4) true) ∧
    Represents (flattenTree (.mk 0 (List.replicate 8 none) (⟨1, 0, 0, 1⟩ : Vec4) true))
      (.mk 0 (List.replicate 8 none) (⟨1, 0, 0, 1⟩ : Vec4) true) 0 :=
  flattened_children_contiguous _ _ _ _ _ buildOctree_singleton_leaf
    (by rw [countNodes_singleton_leaf]; norm_num)

/-- C6: for every tree the builder produces, the flattened array holds
exactly as many `GPUNode` records as the pointer tree has present nodes
(absent children contribute no slot), and slot 0 holds the root's record
(its packed color, and a header whose low byte is the root's existence
mask — `0` exactly for a leaf root). -/
theorem flatten_count_and_root :
    ∀ (points : List Voxel) (mn mx : Vec3) (depth : ℤ) (root : OctreeNode),
      buildOctree points mn mx depth = some root →
      (flattenTree root).length = countNodes root ∧
      ((flattenTree root).getD 0 ⟨0, 0⟩).color = packColor root.colorOf ∧
      ((flattenTree root).getD 0 ⟨0, 0⟩).childMask &&& 255 = root.maskOf := by
  intro points mn mx depth root hb
  have hinv := buildOctree_builderInv (MAX_DEPTH - depth).toNat points mn mx depth root
    le_rfl hb
  have hinvq : ∀ e ∈ [(root, (0 : ℕ))], BuilderInv e.1 := by
    intro e he
    rw [List.mem_singleton] at he
    subst he
    exact hinv
  have hlen : (flattenTree root).length = countNodes root := by
    have h := flattenLoop_len (queueMeasure [(root, 0)]) [(root, 0)] [⟨0, 0⟩] le_rfl hinvq
    rw [flattenTree]
    rw [queueMeasure_cons] at h
    simp only [queueMeasure, List.map_nil, List.sum_nil, List.length_singleton,
      List.length_cons, List.length_nil] at h
    omega
  refine ⟨hlen, ?_⟩
  cases hinv with
  | leaf color =>
    rw [flattenTree, flattenLoop_cons_leaf, flattenLoop]
    rw [leafStepData_getD_self color 0 [⟨0, 0⟩] (by simp)]
    exact ⟨rfl, by simp [OctreeNode.maskOf]⟩
  | internal cmask2 cs2 hm256 hmne hlen8 hbits hkids =>
    rw [flattenTree, flattenLoop_cons_internal]
    have hframe := flattenLoop_frame
      (queueMeasure ([] ++ entriesFrom (childrenList cs2) ([⟨0, 0⟩] : List GPUNode).length))
      ([] ++ entriesFrom (childrenList cs2) ([⟨0, 0⟩] : List GPUNode).length)
      (internalStepData cmask2 (childrenList cs2).length Vec4.zero 0 [⟨0, 0⟩])
      0 le_rfl
      (by
        rw [List.nil_append, entriesFrom_snds]
        intro hmem
        have := (List.mem_range'_1.mp hmem).1
        simp at this)
      (by rw [internalStepData_length]; simp)
    rw [hframe]
    rw [internalStepData_getD_self cmask2 _ Vec4.zero 0 [⟨0, 0⟩] (by simp)]
    refine ⟨rfl, ?_⟩
    show ((([⟨0, 0⟩] : List GPUNode).length % 2 ^ 32) <<< 8 % 2 ^ 32 ||| cmask2) &&& 255 =
      cmask2
    exact headerLow _ cmask2 hm256

/-- Witness for `flatten_count_and_root` on a single-leaf build. -/
theorem flatten_count_and_root_witness :
    (flattenTree (.mk 0 (List.replicate 8 none) (⟨1, 0, 0, 1⟩ : Vec4) true)).length =
      countNodes (.mk 0 (List.replicate 8 none) (⟨1, 0, 0, 1⟩ : Vec4) true) ∧
    ((flattenTree (.mk 0 (List.replicate 8 none) (⟨1, 0, 0, 1⟩ : Vec4) true)).getD 0
        ⟨0, 0⟩).color =
      packColor (OctreeNode.mk 0 (List.replicate 8 none) (⟨1, 0, 0, 1⟩ : Vec4) true).colorOf ∧
    ((flattenTree (.mk 0 (List.replicate 8 none) (⟨1, 0, 0, 1⟩ : Vec4) true)).getD 0
        ⟨0, 0⟩).childMask &&& 255 =
      (OctreeNode.mk 0 (List.replicate 8 none) (⟨1, 0, 0, 1⟩ : Vec4) true).maskOf :=
  flatten_count_and_root _ _ _ _ _ buildOctree_singleton_leaf

/-- C10: in every flattened buffer built from a builder-produced tree,
every slot either has existence mask 0 (a leaf record) or carries packed
color 0: the builder assigns a color only in the leaf branch, internal
nodes keep the default `vec4(0)`, and the flattener packs that default,
so every internal record's `packedColor` is 0. -/
theorem internal_nodes_color_zero :
    ∀ (points : List Voxel) (mn mx : Vec3) (depth : ℤ) (root : OctreeNode),
      buildOctree points mn mx depth = some root →
      ∀ j, ((flattenTree root).getD j ⟨0, 0⟩).childMask &&& 255 = 0 ∨
        ((flattenTree root).getD j ⟨0, 0⟩).color = 0 := by
  intro points mn mx depth root hb j
  have hinv := buildOctree_builderInv (MAX_DEPTH - depth).toNat points mn mx depth root
    le_rfl hb
  by_cases hmask : ((flattenTree root).getD j ⟨0, 0⟩).childMask &&& 255 = 0
  · exact Or.inl hmask
  · right
    rw [flattenTree] at hmask ⊢
    apply flattenLoop_colorZero (queueMeasure [(root, 0)]) [(root, 0)] [⟨0, 0⟩] le_rfl
    · intro e he
      rw [List.mem_singleton] at he
      subst he
      exact hinv
    · intro e he
      rw [List.mem_singleton] at he
      subst he
      simp
    · intro i hi
      exfalso
      apply hi
      cases i with
      | zero => rfl
      | succ k => simp
    · exact hmask

/-- Witness for `internal_nodes_color_zero` at slot 0 of a single-leaf
build. -/
theorem internal_nodes_color_zero_witness :
    ((flattenTree (.mk 0 (List.replicate 8 none) (⟨1, 0, 0, 1⟩ : Vec4) true)).getD 0
        ⟨0, 0⟩).childMask &&& 255 = 0 ∨
    ((flattenTree (.mk 0 (List.replicate 8 none) (⟨1, 0, 0, 1⟩ : Vec4) true)).getD 0
        ⟨0, 0⟩).color = 0 :=
  internal_nodes_color_zero _ _ _ _ _ buildOctree_singleton_leaf 0

/-- C5 counterexample: the bounding-box scan seeds its accumulators with
`vec3(1e9)` / `vec3(-1e9)`, so for a voxel at x = 2·10⁹ (valid for the
`ivec3` position) the computed minimum sticks at 10⁹ and is NOT the floor
of the raw minimum position 2·10⁹. -/
theorem bounding_cube_sentinel_counterexample :
    boundsMinOf [⟨2000000000, 0, 0, Vec4.zero⟩] ≠
      (rawMinPos [⟨2000000000, 0, 0, Vec4.zero⟩]).cfloor := by
  intro h
  have hx := congrArg Vec3.x h
  simp only [boundsMinOf, computeBMin, rawMinPos, initBMin, List.foldl, List.headD,
    Voxel.posVec, Vec3.cmin, Vec3.cfloor] at hx
  norm_num at hx

/-- The uniform color given to every voxel of the dense-cube model below
(white, alpha 1 — any color works; the counterexample only needs the
tree's shape). -/
def denseColor : Vec4 := ⟨1, 1, 1, 1⟩

/-- The complete octree of depth `k` that `buildOctree` produces on a
dense cube of edge `2^k`: every internal node has existence mask 255, the
default `vec4(0)` color and all 8 children present; every leaf carries
the voxels' common color. -/
def fullTree : ℕ → OctreeNode
  | 0 => .mk 0 (List.replicate 8 none) denseColor true
  | k + 1 => .mk 255 (List.replicate 8 (some (fullTree k))) Vec4.zero false

/-- `l` lists exactly the voxels of the cube `[x0, x0+2^k) × [y0, y0+2^k)
× [z0, z0+2^k)`: every entry lies in the cube and is colored `denseColor`,
and every grid position of the cube occurs. -/
def DenseCover (x0 y0 z0 : ℤ) (k : ℕ) (l : List Voxel) : Prop :=
  (∀ v ∈ l, x0 ≤ v.px ∧ v.px < x0 + 2 ^ k ∧ y0 ≤ v.py ∧ v.py < y0 + 2 ^ k ∧
    z0 ≤ v.pz ∧ v.pz < z0 + 2 ^ k ∧ v.color = denseColor) ∧
  (∀ x y z : ℤ, x0 ≤ x → x < x0 + 2 ^ k → y0 ≤ y → y < y0 + 2 ^ k →
    z0 ≤ z → z < z0 + 2 ^ k → ∃ v ∈ l, v.px = x ∧ v.py = y ∧ v.pz = z)

theorem octantIndexBuild_val (p c : Vec3) :
    octantIndexBuild p c =
      (if p.x ≥ c.x then 1 else 0) + (if p.y ≥ c.y then 2 else 0) +
        (if p.z ≥ c.z then 4 else 0) := by
  rw [octantIndexBuild]
  split_ifs <;> decide

theorem octantIndexBuild_eq_iff (p c : Vec3) (i : ℕ) (hi : i < 8) :
    octantIndexBuild p c = i ↔
      ((p.x ≥ c.x ↔ i &&& 1 ≠ 0) ∧ (p.y ≥ c.y ↔ i &&& 2 ≠ 0) ∧
        (p.z ≥ c.z ↔ i &&& 4 ≠ 0)) := by
  rw [octantIndexBuild_val]
  interval_cases i <;> by_cases h1 : p.x ≥ c.x <;> by_cases h2 : p.y ≥ c.y <;>
    by_cases h3 : p.z ≥ c.z <;> simp [h1, h2, h3] <;> decide

theorem half_split (a : ℤ) (k : ℕ) (w : ℤ) :
    ((w : ℚ) ≥ (a : ℚ) + 2 ^ k) ↔ a + 2 ^ k ≤ w := by
  rw [ge_iff_le, show (a : ℚ) + 2 ^ k = ((a + 2 ^ k : ℤ) : ℚ) from by push_cast; ring]
  exact Int.cast_le

theorem octantFilter_dense (k : ℕ) (x0 y0 z0 dx dy dz : ℤ) (l : List Voxel) (i : ℕ)
    (hi : i < 8)
    (hdx : dx = if i &&& 1 ≠ 0 then (2 ^ k : ℤ) else 0)
    (hdy : dy = if i &&& 2 ≠ 0 then (2 ^ k : ℤ) else 0)
    (hdz : dz = if i &&& 4 ≠ 0 then (2 ^ k : ℤ) else 0)
    (hc : DenseCover x0 y0 z0 (k + 1) l) :
    DenseCover (x0 + dx) (y0 + dy) (z0 + dz) k
      (octantFilter l ⟨(x0 : ℚ) + 2 ^ k, (y0 : ℚ) + 2 ^ k, (z0 : ℚ) + 2 ^ k⟩ i) := by
  have hp2 : (2 : ℤ) ^ (k + 1) = 2 ^ k * 2 := pow_succ 2 k
  have hE0 : (0 : ℤ) < 2 ^ k := by positivity
  constructor
  · intro v hv
    rw [octantFilter, List.mem_filter, beq_iff_eq,
      octantIndexBuild_eq_iff _ _ i hi] at hv
    obtain ⟨hvl, hbx, hby, hbz⟩ := hv
    simp only [Voxel.posVec] at hbx hby hbz
    rw [half_split x0 k v.px] at hbx
    rw [half_split y0 k v.py] at hby
    rw [half_split z0 k v.pz] at hbz
    obtain ⟨hx1, hx2, hy1, hy2, hz1, hz2, hcol⟩ := hc.1 v hvl
    refine ⟨?_, ?_, ?_, ?_, ?_, ?_, hcol⟩
    · by_cases hb : i &&& 1 ≠ 0
      · rw [if_pos hb] at hdx
        have := hbx.mpr hb
        omega
      · rw [if_neg hb] at hdx
        omega
    · by_cases hb : i &&& 1 ≠ 0
      · rw [if_pos hb] at hdx
        omega
      · rw [if_neg hb] at hdx
        have hnot : ¬ (x0 + 2 ^ k ≤ v.px) := fun hcon => hb (hbx.mp hcon)
        omega
    · by_cases hb : i &&& 2 ≠ 0
      · rw [if_pos hb] at hdy
        have := hby.mpr hb
        omega
      · rw [if_neg hb] at hdy
        omega
    · by_cases hb : i &&& 2 ≠ 0
      · rw [if_pos hb] at hdy
        omega
      · rw [if_neg hb] at hdy
        have hnot : ¬ (y0 + 2 ^ k ≤ v.py) := fun hcon => hb (hby.mp hcon)
        omega
    · by_cases hb : i &&& 4 ≠ 0
      · rw [if_pos hb] at hdz
        have := hbz.mpr hb
        omega
      · rw [if_neg hb] at hdz
        omega
    · by_cases hb : i &&& 4 ≠ 0
      · rw [if_pos hb] at hdz
        omega
      · rw [if_neg hb] at hdz
        have hnot : ¬ (z0 + 2 ^ k ≤ v.pz) := fun hcon => hb (hbz.mp hcon)
        omega
  · intro x y z hx0 hx1 hy0 hy1 hz0 hz1
    have hdx01 : 0 ≤ dx ∧ dx ≤ 2 ^ k := by rw [hdx]; split_ifs <;> omega
    have hdy01 : 0 ≤ dy ∧ dy ≤ 2 ^ k := by rw [hdy]; split_ifs <;> omega
    have hdz01 : 0 ≤ dz ∧ dz ≤ 2 ^ k := by rw [hdz]; split_ifs <;> omega
    obtain ⟨v, hvl, hpx, hpy, hpz⟩ :=
      hc.2 x y z (by omega) (by omega) (by omega) (by omega) (by omega) (by omega)
    refine ⟨v, ?_, hpx, hpy, hpz⟩
    rw [octantFilter, List.mem_filter, beq_iff_eq, octantIndexBuild_eq_iff _ _ i hi]
    refine ⟨hvl, ?_, ?_, ?_⟩
    · simp only [Voxel.posVec]
      rw [half_split x0 k v.px, hpx]
      by_cases hb : i &&& 1 ≠ 0
      · rw [if_pos hb] at hdx
        exact iff_of_true (by omega) hb
      · rw [if_neg hb] at hdx
        exact iff_of_false (by omega) hb
    · simp only [Voxel.posVec]
      rw [half_split y0 k v.py, hpy]
      by_cases hb : i &&& 2 ≠ 0
      · rw [if_pos hb] at hdy
        exact iff_of_true (by omega) hb
      · rw [if_neg hb] at hdy
        exact iff_of_false (by omega) hb
    · simp only [Voxel.posVec]
      rw [half_split z0 k v.pz, hpz]
      by_cases hb : i &&& 4 ≠ 0
      · rw [if_pos hb] at hdz
        exact iff_of_true (by omega) hb
      · rw [if_neg hb] at hdz
        exact iff_of_false (by omega) hb

theorem buildOctree_dense_child (k : ℕ) (x0 y0 z0 dx dy dz : ℤ) (depth : ℤ) (l : List Voxel)
    (i : ℕ) (hi : i < 8)
    (hdx : dx = if i &&& 1 ≠ 0 then (2 ^ k : ℤ) else 0)
    (hdy : dy = if i &&& 2 ≠ 0 then (2 ^ k : ℤ) else 0)
    (hdz : dz = if i &&& 4 ≠ 0 then (2 ^ k : ℤ) else 0)
    (hrec : ∀ (x1 y1 z1 : ℤ) (d1 : ℤ) (l1 : List Voxel), d1 + (k : ℤ) ≤ 16 →
      DenseCover x1 y1 z1 k l1 →
      buildOctree l1 ⟨(x1 : ℚ), (y1 : ℚ), (z1 : ℚ)⟩
          ⟨(x1 : ℚ) + 2 ^ k, (y1 : ℚ) + 2 ^ k, (z1 : ℚ) + 2 ^ k⟩ d1 =
        some (fullTree k))
    (hd : depth + (k : ℤ) + 2 ≤ 17) (hc : DenseCover x0 y0 z0 (k + 1) l) :
    buildOctree (octantFilter l ⟨(x0 : ℚ) + 2 ^ k, (y0 : ℚ) + 2 ^ k, (z0 : ℚ) + 2 ^ k⟩ i)
        (subCubeMin ⟨(x0 : ℚ), (y0 : ℚ), (z0 : ℚ)⟩
          ⟨(x0 : ℚ) + 2 ^ k, (y0 : ℚ) + 2 ^ k, (z0 : ℚ) + 2 ^ k⟩ i)
        (subCubeMax ⟨(x0 : ℚ) + 2 ^ (k + 1), (y0 : ℚ) + 2 ^ (k + 1), (z0 : ℚ) + 2 ^ (k + 1)⟩
          ⟨(x0 : ℚ) + 2 ^ k, (y0 : ℚ) + 2 ^ k, (z0 : ℚ) + 2 ^ k⟩ i)
        (depth + 1) = some (fullTree k) := by
  have hcov := octantFilter_dense k x0 y0 z0 dx dy dz l i hi hdx hdy hdz hc
  subst hdx hdy hdz
  have hmin : subCubeMin ⟨(x0 : ℚ), (y0 : ℚ), (z0 : ℚ)⟩
      ⟨(x0 : ℚ) + 2 ^ k, (y0 : ℚ) + 2 ^ k, (z0 : ℚ) + 2 ^ k⟩ i =
      ⟨((x0 + if i &&& 1 ≠ 0 then (2 ^ k : ℤ) else 0 : ℤ) : ℚ),
       ((y0 + if i &&& 2 ≠ 0 then (2 ^ k : ℤ) else 0 : ℤ) : ℚ),
       ((z0 + if i &&& 4 ≠ 0 then (2 ^ k : ℤ) else 0 : ℤ) : ℚ)⟩ := by
    apply Vec3.eq_of <;> simp only [subCubeMin] <;> split_ifs <;> push_cast <;> ring
  have hmax : subCubeMax
      ⟨(x0 : ℚ) + 2 ^ (k + 1), (y0 : ℚ) + 2 ^ (k + 1), (z0 : ℚ) + 2 ^ (k + 1)⟩
      ⟨(x0 : ℚ) + 2 ^ k, (y0 : ℚ) + 2 ^ k, (z0 : ℚ) + 2 ^ k⟩ i =
      ⟨((x0 + if i &&& 1 ≠ 0 then (2 ^ k : ℤ) else 0 : ℤ) : ℚ) + 2 ^ k,
       ((y0 + if i &&& 2 ≠ 0 then (2 ^ k : ℤ) else 0 : ℤ) : ℚ) + 2 ^ k,
       ((z0 + if i &&& 4 ≠ 0 then (2 ^ k : ℤ) else 0 : ℤ) : ℚ) + 2 ^ k⟩ := by
    apply Vec3.eq_of <;> simp only [subCubeMax] <;> split_ifs <;> push_cast <;> ring
  rw [hmin, hmax]
  exact hrec _ _ _ (depth + 1) _ (by omega) hcov

/-- On a voxel list that densely covers a cube of edge `2^k` (with enough
depth budget left), `buildOctree` produces the complete tree `fullTree k`. -/
theorem buildOctree_dense :
    ∀ (k : ℕ) (x0 y0 z0 : ℤ) (depth : ℤ) (l : List Voxel),
      depth + (k : ℤ) ≤ 16 → DenseCover x0 y0 z0 k l →
      buildOctree l ⟨(x0 : ℚ), (y0 : ℚ), (z0 : ℚ)⟩
          ⟨(x0 : ℚ) + 2 ^ k, (y0 : ℚ) + 2 ^ k, (z0 : ℚ) + 2 ^ k⟩ depth =
        some (fullTree k) := by
  intro k
  induction k with
  | zero =>
    intro x0 y0 z0 depth l hd hc
    have h1 : (2 : ℤ) ^ (0 : ℕ) = 1 := pow_zero 2
    obtain ⟨v, hvl, -, -, -⟩ :=
      hc.2 x0 y0 z0 le_rfl (by omega) le_rfl (by omega) le_rfl (by omega)
    have hne : l ≠ [] := by
      intro hl
      rw [hl] at hvl
      simp at hvl
    rw [buildOctree, if_neg hne]
    dsimp only
    rw [if_pos (Or.inr (show (x0 : ℚ) + 2 ^ (0 : ℕ) - (x0 : ℚ) ≤ 1 by norm_num))]
    cases l with
    | nil => exact absurd rfl hne
    | cons p rest =>
      have hcol : p.color = denseColor :=
        (hc.1 p (List.mem_cons_self p rest)).2.2.2.2.2.2
      show some (OctreeNode.mk 0 (List.replicate 8 none) p.color true) = some (fullTree 0)
      rw [hcol]
      rfl
  | succ k ih =>
    intro x0 y0 z0 depth l hd hc
    have hp2 : (2 : ℤ) ^ (k + 1) = 2 ^ k * 2 := pow_succ 2 k
    have hE0 : (0 : ℤ) < 2 ^ k := by positivity
    obtain ⟨v, hvl, -, -, -⟩ :=
      hc.2 x0 y0 z0 le_rfl (by omega) le_rfl (by omega) le_rfl (by omega)
    have hne : l ≠ [] := by
      intro hl
      rw [hl] at hvl
      simp at hvl
    rw [buildOctree, if_neg hne]
    dsimp only
    rw [if_neg (show ¬ (depth ≥ MAX_DEPTH ∨ (x0 : ℚ) + 2 ^ (k + 1) - (x0 : ℚ) ≤ 1) from by
      rw [not_or]
      constructor
      · simp only [MAX_DEPTH]
        omega
      · rw [not_le, show (x0 : ℚ) + 2 ^ (k + 1) - (x0 : ℚ) = 2 ^ (k + 1) from by ring]
        exact one_lt_pow₀ (by norm_num) (Nat.succ_ne_zero k))]
    have hcenter : (Vec3.add ⟨(x0 : ℚ), (y0 : ℚ), (z0 : ℚ)⟩
        ⟨(x0 : ℚ) + 2 ^ (k + 1), (y0 : ℚ) + 2 ^ (k + 1), (z0 : ℚ) + 2 ^ (k + 1)⟩).smul
          (1 / 2) =
        (⟨(x0 : ℚ) + 2 ^ k, (y0 : ℚ) + 2 ^ k, (z0 : ℚ) + 2 ^ k⟩ : Vec3) := by
      apply Vec3.eq_of <;> simp only [Vec3.add, Vec3.smul] <;> ring
    rw [hcenter]
    have hc0 := buildOctree_dense_child k x0 y0 z0 0 0 0 depth l 0 (by norm_num)
      (by rw [if_neg (by decide)])
      (by rw [if_neg (by decide)])
      (by rw [if_neg (by decide)]) ih (by omega) hc
    have hc1 := buildOctree_dense_child k x0 y0 z0 (2 ^ k) 0 0 depth l 1 (by norm_num)
      (by rw [if_pos (by decide)])
      (by rw [if_neg (by decide)])
      (by rw [if_neg (by decide)]) ih (by omega) hc
    have hc2 := buildOctree_dense_child k x0 y0 z0 0 (2 ^ k) 0 depth l 2 (by norm_num)
      (by rw [if_neg (by decide)])
      (by rw [if_pos (by decide)])
      (by rw [if_neg (by decide)]) ih (by omega) hc
    have hc3 := buildOctree_dense_child k x0 y0 z0 (2 ^ k) (2 ^ k) 0 depth l 3 (by norm_num)
      (by rw [if_pos (by decide)])
      (by rw [if_pos (by decide)])
      (by rw [if_neg (by decide)]) ih (by omega) hc
    have hc4 := buildOctree_dense_child k x0 y0 z0 0 0 (2 ^ k) depth l 4 (by norm_num)
      (by rw [if_neg (by decide)])
      (by rw [if_neg (by decide)])
      (by rw [if_pos (by decide)]) ih (by omega) hc
    have hc5 := buildOctree_dense_child k x0 y0 z0 (2 ^ k) 0 (2 ^ k) depth l 5 (by norm_num)
      (by rw [if_pos (by decide)])
      (by rw [if_neg (by decide)])
      (by rw [if_pos (by decide)]) ih (by omega) hc
    have hc6 := buildOctree_dense_child k x0 y0 z0 0 (2 ^ k) (2 ^ k) depth l 6 (by norm_num)
      (by rw [if_neg (by decide)])
      (by rw [if_pos (by decide)])
      (by rw [if_pos (by decide)]) ih (by omega) hc
    have hc7 := buildOctree_dense_child k x0 y0 z0 (2 ^ k) (2 ^ k) (2 ^ k) depth l 7 (by norm_num)
      (by rw [if_pos (by decide)])
      (by rw [if_pos (by decide)])
      (by rw [if_pos (by decide)]) ih (by omega) hc
    have hch : (List.range 8).map (fun i =>
        buildOctree
          (octantFilter l ⟨(x0 : ℚ) + 2 ^ k, (y0 : ℚ) + 2 ^ k, (z0 : ℚ) + 2 ^ k⟩ i)
          (subCubeMin ⟨(x0 : ℚ), (y0 : ℚ), (z0 : ℚ)⟩
            ⟨(x0 : ℚ) + 2 ^ k, (y0 : ℚ) + 2 ^ k, (z0 : ℚ) + 2 ^ k⟩ i)
          (subCubeMax
            ⟨(x0 : ℚ) + 2 ^ (k + 1), (y0 : ℚ) + 2 ^ (k + 1), (z0 : ℚ) + 2 ^ (k + 1)⟩
            ⟨(x0 : ℚ) + 2 ^ k, (y0 : ℚ) + 2 ^ k, (z0 : ℚ) + 2 ^ k⟩ i)
          (depth + 1)) = List.replicate 8 (some (fullTree k)) := by
      rw [show List.range 8 = [0, 1, 2, 3, 4, 5, 6, 7] from rfl]
      simp only [List.map]
      rw [hc0, hc1, hc2, hc3, hc4, hc5, hc6, hc7]
      rfl
    rw [hch]
    have hfold : (List.range 8).foldl
        (fun m i => if ((List.replicate 8 (some (fullTree k))).getD i none).isSome = true
          then m ||| 1 <<< i else m) 0 = 255 := by
      rw [show List.range 8 = [0, 1, 2, 3, 4, 5, 6, 7] from rfl]
      rw [show List.replicate 8 (some (fullTree k)) =
        [some (fullTree k), some (fullTree k), some (fullTree k), some (fullTree k),
         some (fullTree k), some (fullTree k), some (fullTree k), some (fullTree k)] from rfl]
      simp [List.foldl]
    rw [hfold]
    rfl

/-- A dense 256³ voxel model: one voxel (colored `denseColor`) at every
grid position of `[0,256)³` — the .vox format's own maximal model size,
so this input is producible in the program. -/
def denseCube : List Voxel :=
  (List.range 256).flatMap (fun (x : ℕ) =>
    (List.range 256).flatMap (fun (y : ℕ) =>
      (List.range 256).map (fun (z : ℕ) => ⟨(x : ℤ), (y : ℤ), (z : ℤ), denseColor⟩)))

theorem mem_denseCube (v : Voxel) :
    v ∈ denseCube ↔ ∃ x : ℕ, x < 256 ∧ ∃ y : ℕ, y < 256 ∧ ∃ z : ℕ, z < 256 ∧
      v = ⟨(x : ℤ), (y : ℤ), (z : ℤ), denseColor⟩ := by
  rw [denseCube]
  constructor
  · intro h
    rw [List.mem_flatMap] at h
    obtain ⟨x, hx, h⟩ := h
    rw [List.mem_range] at hx
    rw [List.mem_flatMap] at h
    obtain ⟨y, hy, h⟩ := h
    rw [List.mem_range] at hy
    rw [List.mem_map] at h
    obtain ⟨z, hz, h⟩ := h
    rw [List.mem_range] at hz
    exact ⟨x, hx, y, hy, z, hz, h.symm⟩
  · rintro ⟨x, hx, y, hy, z, hz, rfl⟩
    rw [List.mem_flatMap]
    refine ⟨x, by rw [List.mem_range]; exact hx, ?_⟩
    rw [List.mem_flatMap]
    refine ⟨y, by rw [List.mem_range]; exact hy, ?_⟩
    rw [List.mem_map]
    exact ⟨z, by rw [List.mem_range]; exact hz, rfl⟩

theorem denseCube_cover : DenseCover 0 0 0 8 denseCube := by
  constructor
  · intro v hv
    rw [mem_denseCube] at hv
    obtain ⟨x, hx, y, hy, z, hz, rfl⟩ := hv
    refine ⟨show (0 : ℤ) ≤ (x : ℤ) by omega, show (x : ℤ) < 0 + 2 ^ 8 by push_cast; omega,
      show (0 : ℤ) ≤ (y : ℤ) by omega, show (y : ℤ) < 0 + 2 ^ 8 by push_cast; omega,
      show (0 : ℤ) ≤ (z : ℤ) by omega, show (z : ℤ) < 0 + 2 ^ 8 by push_cast; omega, rfl⟩
  · intro x y z hx0 hx1 hy0 hy1 hz0 hz1
    refine ⟨⟨x, y, z, denseColor⟩, ?_, rfl, rfl, rfl⟩
    rw [mem_denseCube]
    refine ⟨x.toNat, by omega, y.toNat, by omega, z.toNat, by omega, ?_⟩
    rw [Int.toNat_of_nonneg hx0, Int.toNat_of_nonneg hy0, Int.toNat_of_nonneg hz0]

/-- `buildOctree` on the dense 256³ cube (with the bounds
`buildOctreeFromVoxels` would compute for it: min 0, power-of-two edge
256 — every quantity involved is float-exact) yields the complete
depth-8 tree. -/
theorem buildOctree_denseCube :
    buildOctree denseCube ⟨0, 0, 0⟩ ⟨256, 256, 256⟩ 0 = some (fullTree 8) := by
  have h := buildOctree_dense 8 0 0 0 0 denseCube (by norm_num) denseCube_cover
  norm_num at h
  exact h

theorem countList_replicate_some (t : OctreeNode) :
    countList (List.replicate 8 (some t)) = 8 * countNodes t := by
  rw [show List.replicate 8 (some t) =
    [some t, some t, some t, some t, some t, some t, some t, some t] from rfl]
  simp [countList, countOpt]
  ring

/-- `1 + 8 + 8² + … + 8^k`: the node count of the complete tree of
depth `k`. -/
def fullCount : ℕ → ℕ
  | 0 => 1
  | k + 1 => 1 + 8 * fullCount k

theorem countNodes_fullTree : ∀ k, countNodes (fullTree k) = fullCount k := by
  intro k
  induction k with
  | zero =>
    rw [show fullTree 0 = OctreeNode.mk 0 (List.replicate 8 none) denseColor true from rfl,
      countNodes_eq]
    show 1 + countList (List.replicate 8 none) = fullCount 0
    rw [countList_replicate8_none]
    rfl
  | succ k ih =>
    rw [show fullTree (k + 1) =
      OctreeNode.mk 255 (List.replicate 8 (some (fullTree k))) Vec4.zero false from rfl,
      countNodes_eq]
    show 1 + countList (List.replicate 8 (some (fullTree k))) = fullCount (k + 1)
    rw [countList_replicate_some, ih]
    rfl

/-- `(8^9 − 1)/7 = fullCount 8`: the number of nodes of the complete
depth-8 tree, hence the number of `GPUNode` records its flattening
produces. -/
def denseTotal : ℕ := 19173961

/-- `(8^l − 1)/7`: the BFS slot at which level `l` of the complete tree
starts in the flattened array (level `l+1` starts at `8·bfsBase l + 1`). -/
def bfsBase : ℕ → ℕ
  | 0 => 0
  | l + 1 => 8 * bfsBase l + 1

theorem bfsBase_lt_succ (a : ℕ) : bfsBase a < bfsBase (a + 1) := by
  show bfsBase a < 8 * bfsBase a + 1
  omega

theorem bfsBase_mono (a b : ℕ) (h : a ≤ b) : bfsBase a ≤ bfsBase b := by
  induction b with
  | zero =>
    have : a = 0 := by omega
    subst this
    exact le_rfl
  | succ n ih =>
    rcases Nat.lt_or_ge a (n + 1) with h1 | h2
    · exact le_trans (ih (by omega)) (le_of_lt (bfsBase_lt_succ n))
    · have : a = n + 1 := by omega
      subst this
      exact le_rfl

/-- The node of the complete depth-8 tree sitting at BFS slot `i` of the
flattened array: the children of the node at slot `i` sit at slots
`8i+1 … 8i+8`, and a slot is internal exactly when its last child slot
`8i+8` still lies inside the array. -/
def nodeAt (i : ℕ) : OctreeNode :=
  if h : 8 * i + 9 ≤ denseTotal then
    .mk 255
      [some (nodeAt (8 * i + 1)), some (nodeAt (8 * i + 2)), some (nodeAt (8 * i + 3)),
       some (nodeAt (8 * i + 4)), some (nodeAt (8 * i + 5)), some (nodeAt (8 * i + 6)),
       some (nodeAt (8 * i + 7)), some (nodeAt (8 * i + 8))]
      Vec4.zero false
  else .mk 0 (List.replicate 8 none) denseColor true
termination_by denseTotal - i
decreasing_by
  all_goals omega

theorem nodeAt_eq_fullTree :
    ∀ (m l i : ℕ), l + m = 8 → bfsBase l ≤ i → i < bfsBase (l + 1) →
      nodeAt i = fullTree m := by
  intro m
  induction m with
  | zero =>
    intro l i hl h1 h2
    have hl8 : l = 8 := by omega
    subst hl8
    have hb8 : bfsBase 8 = 2396745 := by norm_num [bfsBase]
    have hb9 : bfsBase 9 = 19173961 := by norm_num [bfsBase]
    rw [nodeAt, dif_neg (show ¬ (8 * i + 9 ≤ denseTotal) from by
      rw [show denseTotal = 19173961 from rfl]
      omega)]
    rfl
  | succ m ih =>
    intro l i hl h1 h2
    have hstep1 : bfsBase (l + 1) = 8 * bfsBase l + 1 := rfl
    have hstep2 : bfsBase (l + 1 + 1) = 8 * bfsBase (l + 1) + 1 := rfl
    have hmono : bfsBase (l + 1 + 1) ≤ bfsBase 9 := bfsBase_mono _ _ (by omega)
    have hb9 : bfsBase 9 = denseTotal := by norm_num [bfsBase, denseTotal]
    have hint : 8 * i + 9 ≤ denseTotal := by omega
    have hchild : ∀ j, 1 ≤ j → j ≤ 8 → nodeAt (8 * i + j) = fullTree m := by
      intro j hj1 hj8
      exact ih (l + 1) (8 * i + j) (by omega) (by omega) (by omega)
    rw [nodeAt, dif_pos hint]
    rw [hchild 1 (by norm_num) (by norm_num), hchild 2 (by norm_num) (by norm_num),
      hchild 3 (by norm_num) (by norm_num), hchild 4 (by norm_num) (by norm_num),
      hchild 5 (by norm_num) (by norm_num), hchild 6 (by norm_num) (by norm_num),
      hchild 7 (by norm_num) (by norm_num), hchild 8 (by norm_num) (by norm_num)]
    rfl

theorem nodeAt_zero : nodeAt 0 = fullTree 8 :=
  nodeAt_eq_fullTree 8 0 0 rfl (by norm_num [bfsBase]) (by norm_num [bfsBase])

/-- The record the flattener leaves at slot `i` of the flattened complete
depth-8 tree: an internal slot gets header `((8i+1) << 8) % 2^32 | 255`
(`8i+1` is its first child's slot; the `uint32` arithmetic truncates it to
24 bits) and packed color 0; a leaf slot gets header 0 and the packed
leaf color. -/
def finalRec (i : ℕ) : GPUNode :=
  if 8 * i + 9 ≤ denseTotal then ⟨((8 * i + 1) <<< 8) % 2 ^ 32 ||| 255, 0⟩
  else ⟨0, packColor denseColor⟩

/-- Running the flattener on the complete depth-8 tree: if the first `a`
slots already hold their final records, the later slots hold `{0,0}`
placeholders, and the worklist holds exactly the nodes for slots
`[a, data.length)` in order, then the finished array holds `finalRec j`
at every slot `j < denseTotal`. -/
theorem flattenLoop_dense_layout :
    ∀ (fuel a q : ℕ) (data : List GPUNode),
      denseTotal - a ≤ fuel →
      a + q = data.length →
      (8 * a + 1 ≤ denseTotal → data.length = 8 * a + 1) →
      (denseTotal ≤ 8 * a + 1 → data.length = denseTotal) →
      (∀ j, j < a → data.getD j ⟨0, 0⟩ = finalRec j) →
      (∀ j, a ≤ j → data.getD j ⟨0, 0⟩ = ⟨0, 0⟩) →
      ∀ j, (flattenLoop ((List.range' a q).map (fun i => (nodeAt i, i))) data).getD j
          ⟨0, 0⟩ =
        if j < denseTotal then finalRec j else ⟨0, 0⟩ := by
  intro fuel
  induction fuel with
  | zero =>
    intro a q data hfuel hq hlenA hlenB h4 h5 j
    have hD : denseTotal = 19173961 := rfl
    have ha : denseTotal ≤ a := by omega
    have hlenD : data.length = denseTotal := hlenB (by omega)
    have hq0 : q = 0 := by omega
    subst hq0
    rw [show List.range' a 0 = ([] : List ℕ) from rfl, List.map_nil, flattenLoop]
    by_cases hj : j < denseTotal
    · rw [if_pos hj]
      exact h4 j (by omega)
    · rw [if_neg hj]
      exact h5 j (by omega)
  | succ fuel ih =>
    intro a q data hfuel hq hlenA hlenB h4 h5 j
    have hD : denseTotal = 19173961 := rfl
    by_cases ha : denseTotal ≤ a
    · have hlenD : data.length = denseTotal := hlenB (by omega)
      have hq0 : q = 0 := by omega
      subst hq0
      rw [show List.range' a 0 = ([] : List ℕ) from rfl, List.map_nil, flattenLoop]
      by_cases hj : j < denseTotal
      · rw [if_pos hj]
        exact h4 j (by omega)
      · rw [if_neg hj]
        exact h5 j (by omega)
    · push_neg at ha
      have hq1 : 1 ≤ q := by
        rcases le_total (8 * a + 1) denseTotal with hm | hm
        · have := hlenA hm
          omega
        · have := hlenB hm
          omega
      obtain ⟨q1, rfl⟩ : ∃ q1, q = q1 + 1 := ⟨q - 1, by omega⟩
      rw [show List.range' a (q1 + 1) = a :: List.range' (a + 1) q1 from rfl, List.map_cons]
      by_cases h8 : 8 * a + 9 ≤ denseTotal
      · -- internal step: the node at slot a has its 8 children at slots 8a+1 … 8a+8
        have hlen1 : data.length = 8 * a + 1 := hlenA (by omega)
        rw [show nodeAt a = OctreeNode.mk 255
            [some (nodeAt (8 * a + 1)), some (nodeAt (8 * a + 2)), some (nodeAt (8 * a + 3)),
             some (nodeAt (8 * a + 4)), some (nodeAt (8 * a + 5)), some (nodeAt (8 * a + 6)),
             some (nodeAt (8 * a + 7)), some (nodeAt (8 * a + 8))] Vec4.zero false from by
          rw [nodeAt, dif_pos h8]]
        rw [flattenLoop_cons_internal]
        rw [show childrenList
            [some (nodeAt (8 * a + 1)), some (nodeAt (8 * a + 2)), some (nodeAt (8 * a + 3)),
             some (nodeAt (8 * a + 4)), some (nodeAt (8 * a + 5)), some (nodeAt (8 * a + 6)),
             some (nodeAt (8 * a + 7)), some (nodeAt (8 * a + 8))] =
            [nodeAt (8 * a + 1), nodeAt (8 * a + 2), nodeAt (8 * a + 3), nodeAt (8 * a + 4),
             nodeAt (8 * a + 5), nodeAt (8 * a + 6), nodeAt (8 * a + 7), nodeAt (8 * a + 8)]
          from rfl]
        rw [show List.length
            [nodeAt (8 * a + 1), nodeAt (8 * a + 2), nodeAt (8 * a + 3), nodeAt (8 * a + 4),
             nodeAt (8 * a + 5), nodeAt (8 * a + 6), nodeAt (8 * a + 7), nodeAt (8 * a + 8)] = 8
          from rfl]
        rw [hlen1]
        rw [show entriesFrom
            [nodeAt (8 * a + 1), nodeAt (8 * a + 2), nodeAt (8 * a + 3), nodeAt (8 * a + 4),
             nodeAt (8 * a + 5), nodeAt (8 * a + 6), nodeAt (8 * a + 7), nodeAt (8 * a + 8)]
            (8 * a + 1) =
            (List.range' (8 * a + 1) 8).map (fun i => (nodeAt i, i)) from by
          simp [entriesFrom, List.range', show 8 * a + 1 + 1 = 8 * a + 2 from by omega,
            show 8 * a + 2 + 1 = 8 * a + 3 from by omega,
            show 8 * a + 3 + 1 = 8 * a + 4 from by omega,
            show 8 * a + 4 + 1 = 8 * a + 5 from by omega,
            show 8 * a + 5 + 1 = 8 * a + 6 from by omega,
            show 8 * a + 6 + 1 = 8 * a + 7 from by omega,
            show 8 * a + 7 + 1 = 8 * a + 8 from by omega]]
        rw [← List.map_append]
        rw [show List.range' (a + 1) q1 ++ List.range' (8 * a + 1) 8 =
            List.range' (a + 1) (8 + q1) from by
          have hr := List.range'_append (a + 1) q1 8 1
          rw [show a + 1 + 1 * q1 = 8 * a + 1 from by omega] at hr
          exact hr]
        refine ih (a + 1) (8 + q1) (internalStepData 255 8 Vec4.zero a data) ?_ ?_ ?_ ?_ ?_ ?_ j
        · omega
        · rw [internalStepData_length]
          omega
        · intro hle
          rw [internalStepData_length]
          omega
        · intro hle
          rw [internalStepData_length]
          omega
        · intro j2 hj2
          rcases Nat.lt_or_ge j2 a with hlt | hge
          · rw [internalStepData_getD_ne 255 8 Vec4.zero a j2 data (by omega) (by omega)]
            exact h4 j2 hlt
          · have hj2a : j2 = a := by omega
            subst hj2a
            rw [internalStepData_getD_self 255 8 Vec4.zero j2 data (by omega)]
            rw [hlen1]
            rw [Nat.mod_eq_of_lt (show 8 * j2 + 1 < 2 ^ 32 from by
              have h32 : (2 : ℕ) ^ 32 = 4294967296 := by norm_num
              omega)]
            rw [packColor_zero]
            simp only [finalRec]
            rw [if_pos h8]
        · intro j2 hj2
          rcases Nat.lt_or_ge j2 data.length with hlt | hge
          · rw [internalStepData_getD_ne 255 8 Vec4.zero a j2 data (by omega) hlt]
            exact h5 j2 (by omega)
          · exact internalStepData_getD_high 255 8 Vec4.zero a j2 data (by omega) hge
      · -- leaf step: slots from here on hold leaves
        have hlenD : data.length = denseTotal := hlenB (by omega)
        rw [show nodeAt a = OctreeNode.mk 0 (List.replicate 8 none) denseColor true from by
          rw [nodeAt, dif_neg h8]]
        rw [flattenLoop_cons_leaf]
        refine ih (a + 1) q1 (leafStepData denseColor a data) ?_ ?_ ?_ ?_ ?_ ?_ j
        · omega
        · rw [leafStepData_length]
          omega
        · intro hle
          rw [leafStepData_length]
          omega
        · intro hle
          rw [leafStepData_length]
          omega
        · intro j2 hj2
          rcases Nat.lt_or_ge j2 a with hlt | hge
          · rw [leafStepData_getD_ne denseColor a j2 data (by omega)]
            exact h4 j2 hlt
          · have hj2a : j2 = a := by omega
            subst hj2a
            rw [leafStepData_getD_self denseColor j2 data (by omega)]
            simp only [finalRec]
            rw [if_neg h8]
        · intro j2 hj2
          rw [leafStepData_getD_ne denseColor a j2 data (by omega)]
          exact h5 j2 (by omega)

/-- Every slot of the flattened complete depth-8 tree holds `finalRec`. -/
theorem flattenTree_dense_getD (j : ℕ) :
    (flattenTree (fullTree 8)).getD j ⟨0, 0⟩ =
      if j < denseTotal then finalRec j else ⟨0, 0⟩ := by
  rw [flattenTree, ← nodeAt_zero]
  rw [show [((nodeAt 0 : OctreeNode), (0 : ℕ))] =
    (List.range' 0 1).map (fun i => (nodeAt i, i)) from rfl]
  refine flattenLoop_dense_layout denseTotal 0 1 [⟨0, 0⟩] (by omega) rfl
    (fun h => rfl) (fun h => ?_) (fun j2 hj2 => absurd hj2 (Nat.not_lt_zero j2))
    (fun j2 hj2 => by cases j2 with | zero => rfl | succ m => rfl) j
  have hD : denseTotal = 19173961 := rfl
  omega

/-- The decode invariant fails on the flattened complete depth-8 tree:
walking the real headers from the root — slots 0, 7, 63, 511, 4095,
32767, 262143 — reaches the internal node at slot 2097152, whose first
child really sits at slot `8·2097152+1 = 16777217 = 2^24+1`; the `uint32`
header pack `(16777217 << 8) % 2^32 | 255 = 511` truncates it, so
`header >> 8 = 1` and the claimed child slot 1 holds an internal record
(mask 255), not the leaf record the invariant demands. -/
theorem dense_not_represents :
    ¬ Represents (flattenTree (fullTree 8)) (fullTree 8) 0 := by
  have hfr : ∀ s : ℕ, s < denseTotal → 8 * s + 9 ≤ denseTotal →
      (flattenTree (fullTree 8)).getD s ⟨0, 0⟩ =
        ⟨((8 * s + 1) <<< 8) % 2 ^ 32 ||| 255, 0⟩ := by
    intro s h1 h2
    rw [flattenTree_dense_getD s, if_pos h1]
    simp only [finalRec]
    rw [if_pos h2]
  intro h
  revert h hfr
  generalize flattenTree (fullTree 8) = D
  intro hfr h
  rw [show fullTree 8 =
    OctreeNode.mk 255 (List.replicate 8 (some (fullTree 7))) Vec4.zero false
    from rfl] at h
  cases h with
  | internal _ _ _ _ hlen0 hmask0 hcol0 hkids0 =>
    have hk0 : 6 < (childrenList (List.replicate 8 (some (fullTree 7)))).length := by
      decide
    have h1 := hkids0 6 hk0
    rw [show (childrenList (List.replicate 8 (some (fullTree 7)))).get ⟨6, hk0⟩ =
      fullTree 7 from rfl] at h1
    rw [hfr 0 (by norm_num [denseTotal]) (by norm_num [denseTotal])] at h1
    rw [show (GPUNode.mk (((8 * 0 + 1) <<< 8) % 2 ^ 32 ||| 255) 0).childMask >>> 8 + 6 =
      7 from by decide] at h1
    rw [show fullTree 7 =
      OctreeNode.mk 255 (List.replicate 8 (some (fullTree 6))) Vec4.zero false
      from rfl] at h1
    cases h1 with
    | internal _ _ _ _ hlen1 hmask1 hcol1 hkids1 =>
      have hk1 : 6 < (childrenList (List.replicate 8 (some (fullTree 6)))).length := by
        decide
      have h2 := hkids1 6 hk1
      rw [show (childrenList (List.replicate 8 (some (fullTree 6)))).get ⟨6, hk1⟩ =
        fullTree 6 from rfl] at h2
      rw [hfr 7 (by norm_num [denseTotal]) (by norm_num [denseTotal])] at h2
      rw [show (GPUNode.mk (((8 * 7 + 1) <<< 8) % 2 ^ 32 ||| 255) 0).childMask >>> 8 + 6 =
        63 from by decide] at h2
      rw [show fullTree 6 =
        OctreeNode.mk 255 (List.replicate 8 (some (fullTree 5))) Vec4.zero false
        from rfl] at h2
      cases h2 with
      | internal _ _ _ _ hlen2 hmask2 hcol2 hkids2 =>
        have hk2 : 6 < (childrenList (List.replicate 8 (some (fullTree 5)))).length := by
          decide
        have h3 := hkids2 6 hk2
        rw [show (childrenList (List.replicate 8 (some (fullTree 5)))).get ⟨6, hk2⟩ =
          fullTree 5 from rfl] at h3
        rw [hfr 63 (by norm_num [denseTotal]) (by norm_num [denseTotal])] at h3
        rw [show (GPUNode.mk (((8 * 63 + 1) <<< 8) % 2 ^ 32 ||| 255) 0).childMask >>> 8 + 6 =
          511 from by decide] at h3
        rw [show fullTree 5 =
          OctreeNode.mk 255 (List.replicate 8 (some (fullTree 4))) Vec4.zero false
          from rfl] at h3
        cases h3 with
        | internal _ _ _ _ hlen3 hmask3 hcol3 hkids3 =>
          have hk3 : 6 < (childrenList (List.replicate 8 (some (fullTree 4)))).length := by
            decide
          have h4 := hkids3 6 hk3
          rw [show (childrenList (List.replicate 8 (some (fullTree 4)))).get ⟨6, hk3⟩ =
            fullTree 4 from rfl] at h4
          rw [hfr 511 (by norm_num [denseTotal]) (by norm_num [denseTotal])] at h4
          rw [show (GPUNode.mk (((8 * 511 + 1) <<< 8) % 2 ^ 32 ||| 255) 0).childMask >>> 8 + 6 =
            4095 from by decide] at h4
          rw [show fullTree 4 =
            OctreeNode.mk 255 (List.replicate 8 (some (fullTree 3))) Vec4.zero false
            from rfl] at h4
          cases h4 with
          | internal _ _ _ _ hlen4 hmask4 hcol4 hkids4 =>
            have hk4 : 6 < (childrenList (List.replicate 8 (some (fullTree 3)))).length := by
              decide
            have h5 := hkids4 6 hk4
            rw [show (childrenList (List.replicate 8 (some (fullTree 3)))).get ⟨6, hk4⟩ =
              fullTree 3 from rfl] at h5
            rw [hfr 4095 (by norm_num [denseTotal]) (by norm_num [denseTotal])] at h5
            rw [show (GPUNode.mk (((8 * 4095 + 1) <<< 8) % 2 ^ 32 ||| 255) 0).childMask >>> 8 + 6 =
              32767 from by decide] at h5
            rw [show fullTree 3 =
              OctreeNode.mk 255 (List.replicate 8 (some (fullTree 2))) Vec4.zero false
              from rfl] at h5
            cases h5 with
            | internal _ _ _ _ hlen5 hmask5 hcol5 hkids5 =>
              have hk5 : 6 < (childrenList (List.replicate 8 (some (fullTree 2)))).length := by
                decide
              have h6 := hkids5 6 hk5
              rw [show (childrenList (List.replicate 8 (some (fullTree 2)))).get ⟨6, hk5⟩ =
                fullTree 2 from rfl] at h6
              rw [hfr 32767 (by norm_num [denseTotal]) (by norm_num [denseTotal])] at h6
              rw [show (GPUNode.mk (((8 * 32767 + 1) <<< 8) % 2 ^ 32 ||| 255) 0).childMask >>> 8 + 6 =
                262143 from by decide] at h6
              rw [show fullTree 2 =
                OctreeNode.mk 255 (List.replicate 8 (some (fullTree 1))) Vec4.zero false
                from rfl] at h6
              cases h6 with
              | internal _ _ _ _ hlen6 hmask6 hcol6 hkids6 =>
                have hk6 : 7 < (childrenList (List.replicate 8 (some (fullTree 1)))).length := by
                  decide
                have h7 := hkids6 7 hk6
                rw [show (childrenList (List.replicate 8 (some (fullTree 1)))).get ⟨7, hk6⟩ =
                  fullTree 1 from rfl] at h7
                rw [hfr 262143 (by norm_num [denseTotal]) (by norm_num [denseTotal])] at h7
                rw [show (GPUNode.mk (((8 * 262143 + 1) <<< 8) % 2 ^ 32 ||| 255) 0).childMask >>> 8 + 7 =
                  2097152 from by decide] at h7
                rw [show fullTree 1 =
                  OctreeNode.mk 255 (List.replicate 8 (some (fullTree 0))) Vec4.zero false
                  from rfl] at h7
                cases h7 with
                | internal _ _ _ _ hlen7 hmask7 hcol7 hkids7 =>
                  have hk7 : 0 < (childrenList (List.replicate 8 (some (fullTree 0)))).length := by
                    decide
                  have h8 := hkids7 0 hk7
                  rw [show (childrenList (List.replicate 8 (some (fullTree 0)))).get ⟨0, hk7⟩ =
                    fullTree 0 from rfl] at h8
                  rw [hfr 2097152 (by norm_num [denseTotal]) (by norm_num [denseTotal])] at h8
                  rw [show (GPUNode.mk (((8 * 2097152 + 1) <<< 8) % 2 ^ 32 ||| 255) 0).childMask >>> 8 + 0 =
                    1 from by decide] at h8
                  rw [show fullTree 0 =
                    OctreeNode.mk 0 (List.replicate 8 none) denseColor true from rfl] at h8
                  cases h8 with
                  | leaf _ _ _ _ hlf hmf hcf =>
                    rw [hfr 1 (by norm_num [denseTotal]) (by norm_num [denseTotal])] at hmf
                    exact absurd hmf (by decide)

/-- C1 counterexample: the claim is not true of every builder-produced
octree.  A dense 256³ model (the .vox format's own maximum) is a legal
input; `buildOctree` turns it into the complete depth-8 tree, which has
`(8^9−1)/7 = 19173961 > 2^24` nodes.  Flattening it overflows the 24 bits
the `uint32` header reserves for `firstChildIdx` — concretely, the
internal node at slot 2097152 has its children at slots `16777217 …`,
`(16777217 << 8)` truncates mod `2^32` to `256`, so its header decodes to
first-child slot 1, where an internal record (mask 255) sits instead of
the required leaf child — and the decode invariant `Represents` (root at
slot 0, each internal header's low byte the existence mask and high bits
the contiguous child slots, leaf headers 0) fails.  The bounds passed to
the builder are the ones `buildOctreeFromVoxels` computes for this input
(min 0, power-of-two edge 256), and every float arithmetic step involved
is exact at these magnitudes. -/
theorem flattened_truncation_counterexample :
    ∃ (points : List Voxel) (mn mx : Vec3) (root : OctreeNode),
      buildOctree points mn mx 0 = some root ∧
      2 ^ 24 < countNodes root ∧
      ¬ Represents (flattenTree root) root 0 := by
  refine ⟨denseCube, ⟨0, 0, 0⟩, ⟨256, 256, 256⟩, fullTree 8, buildOctree_denseCube, ?_,
    dense_not_represents⟩
  rw [countNodes_fullTree 8]
  decide
